import Mathlib

/-!
Verification of lecture_download: link extraction, deduplication and the download/merge pipeline

A shallow embedding of `main.go`.

* A Go `string` is modelled as the list of its characters (`GoString`); the input
  text is taken to be valid UTF-8, so a character is a Unicode scalar value.
* The two regular expressions of the program have the shape
  `c₁ c₂ … cₖ X+` (single-character items followed by one greedy repetition of a
  character class); `Regexp` holds exactly that shape and the matcher below is
  Go's leftmost-first search specialised to it.
* External effects (the video client, the file system, `ffmpeg`, standard
  output) are recorded in a trace of `Action`s; a `World` answers each action.
-/

namespace LectureDownload

/-- A Go string: the sequence of its characters. -/
abbrev GoString := List Char

/-- The double quote character. -/
def dquote : Char := Char.ofNat 34
/-- The backslash character. -/
def backslash : Char := Char.ofNat 92
/-- The apostrophe character. -/
def apostrophe : Char := Char.ofNat 39
/-- The newline character. -/
def newline : Char := Char.ofNat 10

/-! ## Regular expressions -/

/-- One single-character item of a regular expression. -/
inductive CharPat where
  /-- a literal character (also an escaped one, as in `\?`) -/
  | lit (c : Char)
  /-- the dot: any character except newline -/
  | any
  /-- a negated class `[^…]`: any character not listed -/
  | notIn (cs : List Char)
  deriving DecidableEq, Repr

/-- Whether an item accepts a character. -/
def CharPat.accepts : CharPat → Char → Bool
  | .lit c, x => x == c
  | .any, x => x != newline
  | .notIn cs, x => !cs.contains x

/-- A compiled pattern `head rep+`; `capture` tells whether `rep+` is parenthesised. -/
structure Regexp where
  head : List CharPat
  rep : CharPat
  capture : Bool

/-- The items of a pattern text without brackets: a dot is the wildcard, every
other character stands for itself. -/
def items (s : String) : List CharPat :=
  s.toList.map fun c => if c = '.' then CharPat.any else CharPat.lit c

/-- The pattern of `main` (line 33): the Go literal denotes the regular expression
`https://www.youtube.com/[^"|\\]+`; the dots are unescaped and the class lists the
double quote, the vertical bar and the backslash. -/
def youtubePattern : Regexp :=
  { head := items "https://www.youtube.com/"
    rep := .notIn [dquote, '|', backslash]
    capture := false }

/-- The pattern of `extractId` (line 70): the Go literal denotes `watch\?v=([^\\]+)`;
the question mark is escaped, hence literal. -/
def idPattern : Regexp :=
  { head := "watch?v=".toList.map CharPat.lit
    rep := .notIn [backslash]
    capture := true }

/-- Match the single-character items at the start of `s`; the rest of `s` on success. -/
def matchHead : List CharPat → GoString → Option GoString
  | [], s => some s
  | _ :: _, [] => none
  | p :: ps, c :: s => if p.accepts c then matchHead ps s else none

/-- Match the pattern at the very start of `s`: the items of the head, then the
longest non-empty run of the repeated class. Returns the text matched by the head
and the text matched by the repetition. -/
def matchAt (re : Regexp) (s : GoString) : Option (GoString × GoString) :=
  match matchHead re.head s with
  | none => none
  | some rest =>
    match rest.takeWhile re.rep.accepts with
    | [] => none
    | c :: run => some (s.take re.head.length, c :: run)

/-- Leftmost match: the first position of `s` at which the pattern matches. -/
def findFirst (re : Regexp) : GoString → Option (GoString × GoString)
  | [] => none
  | c :: s =>
    match matchAt re (c :: s) with
    | some m => some m
    | none => findFirst re s

/-- `FindStringSubmatch`: nil (the empty list) without a match, otherwise the whole
match followed by the text of each capture group. -/
def Regexp.FindStringSubmatch (re : Regexp) (s : GoString) : List GoString :=
  match findFirst re s with
  | none => []
  | some (h, r) => (h ++ r) :: (if re.capture then [r] else [])

/-- The scan behind `FindAllString`: `skip` characters still belong to the match
found last; at every other position the pattern is tried, and after a match the
search resumes right behind it. -/
def findAllFrom (re : Regexp) : Nat → GoString → List GoString
  | _, [] => []
  | k + 1, _ :: s => findAllFrom re k s
  | 0, c :: s =>
    match matchAt re (c :: s) with
    | some (h, r) => (h ++ r) :: findAllFrom re (h.length + r.length - 1) s
    | none => findAllFrom re 0 s

/-- `FindAllString(s, -1)`: all successive non-overlapping matches. -/
def Regexp.FindAllString (re : Regexp) (s : GoString) : List GoString :=
  findAllFrom re 0 s

/-! ## `extractId` and `deduplicate` -/

/-- `extractId` (lines 69–80): the identifier and the error (`none` is Go's nil). -/
def extractId (link : GoString) : GoString × Option GoString :=
  let m := idPattern.FindStringSubmatch link
  if m.length > 1 then
    (m.getD 1 [], none)
  else
    ([], some "cannot extract id".toList)

/-- `deduplicate` (lines 82–91): the loop appends every string that the result
does not contain yet. -/
def deduplicate (input : List GoString) : List GoString :=
  input.foldl
    (fun deduplicated str =>
      if deduplicated.contains str then deduplicated else deduplicated ++ [str])
    []

/-- `strings.Replace(link, "\n", "", -1)`: the link without its newline characters. -/
def stripNewlines (link : GoString) : GoString :=
  link.filter fun c => c != newline

/-- The variables the loop of lines 35–37 can see: the slice `links` and the loop
variable `link`. -/
structure LoopVars where
  links : List GoString
  link : GoString

/-- The loop of lines 35–37: every iteration copies an element into the loop
variable `link` and assigns the stripped string to that variable; nothing is
written to the slice. -/
def stripLoop (links : List GoString) : LoopVars :=
  links.foldl (fun vars link => { vars with link := stripNewlines link })
    { links := links, link := [] }

/-- Lines 33–37 of `main`: the slice `links` that is handed to `deduplicate`. -/
def mainLinks (data : GoString) : List GoString :=
  let links := youtubePattern.FindAllString data
  (stripLoop links).links

/-- Line 38 of `main`: `deduplicatedLinks`. -/
def deduplicatedLinks (data : GoString) : List GoString :=
  deduplicate (mainLinks data)

/-! ## The outside world -/

/-- A stream format of the video client library (the fields the program depends on). -/
structure Format where
  ItagNo : Nat
  AudioChannels : Nat
  deriving DecidableEq, Repr

/-- The video metadata returned by the client. -/
structure Video where
  ID : GoString
  Formats : List Format
  deriving DecidableEq, Repr

/-- An external action of the program, in the order the trace records them.
Closing files and streams is not recorded. -/
inductive Action where
  /-- `client.GetVideo(videoID)` -/
  | GetVideo (videoID : GoString)
  /-- `client.GetStream(video, &format)` -/
  | GetStream (video : Video) (format : Format)
  /-- `os.Create(name)` -/
  | Create (name : GoString)
  /-- `io.Copy(file, stream)` into the file created as `name` -/
  | Copy (name : GoString)
  /-- `file.WriteString(s)` on the file created as `name` -/
  | WriteString (name : GoString) (s : GoString)
  /-- `exec.Command(argv[0], argv[1:]...).Run()` -/
  | Run (argv : List GoString)
  /-- `fmt.Printf` with the formatted text -/
  | Printf (s : GoString)
  deriving DecidableEq, Repr

/-- The answers of the outside world. Every answer may depend on all actions
performed before (`past`). `result` is the error an action returns (`none` is nil),
`video` the metadata `GetVideo` returns along with a nil error, and `sortFormats` the
ordering `FormatList.Sort` of the client library, which only rearranges the list. -/
structure World where
  result : (past : List Action) → Action → Option GoString
  video : (past : List Action) → GoString → Video
  sortFormats : List Format → List Format
  sortFormats_perm : ∀ l, (sortFormats l).Perm l

/-- Modelled from the spec: `FormatList.WithAudioChannels` of the client library is
not part of the sources; per section 4.2 it keeps the formats that carry an audio
channel. -/
def WithAudioChannels (formats : List Format) : List Format :=
  formats.filter fun f => decide (0 < f.AudioChannels)

/-- How a call of a Go function with result type `error` ends. -/
inductive Outcome where
  /-- normal return of an error value (`none` is nil) -/
  | returned (err : Option GoString)
  /-- a run-time panic with its message -/
  | panicked (msg : GoString)
  deriving DecidableEq, Repr

/-- `downloadVideo` (lines 93–124), started after the actions `tr`. -/
def downloadVideo (w : World) (link filename : GoString) (tr : List Action) :
    List Action × Outcome :=
  match extractId link with
  | (_, some err) => (tr, .returned (some err))
  | (videoID, none) =>
    match w.result tr (.GetVideo videoID) with
    | some err => (tr ++ [.GetVideo videoID], .panicked err)
    | none =>
      let video := w.video tr videoID
      let tr := tr ++ [.GetVideo videoID]
      let formats := w.sortFormats (WithAudioChannels video.Formats)
      match formats with
      | [] => (tr, .panicked "runtime error: index out of range [0] with length 0".toList)
      | format :: _ =>
        match w.result tr (.GetStream video format) with
        | some err => (tr ++ [.GetStream video format], .panicked err)
        | none =>
          let tr := tr ++ [.GetStream video format]
          match w.result tr (.Create filename) with
          | some err => (tr ++ [.Create filename], .panicked err)
          | none =>
            let tr := tr ++ [.Create filename]
            match w.result tr (.Copy filename) with
            | some err => (tr ++ [.Copy filename], .panicked err)
            | none => (tr ++ [.Copy filename], .returned none)

/-- The command line of `normalizeAndBoostAudio` (lines 129–130). -/
def boostArgv (inputFile outputFile : GoString) (volumeScale : Int) : List GoString :=
  let volumeArg := "volume=".toList ++ (toString volumeScale).toList
  ["ffmpeg".toList, "-i".toList, inputFile, "-c:v".toList, "libx264".toList, "-vf".toList,
    "fps=30".toList, "-af".toList, volumeArg, "-c:a".toList, "aac".toList, "-strict".toList,
    "experimental".toList, "-b:a".toList, "192k".toList, outputFile]

/-- `normalizeAndBoostAudio` (lines 127–133): one run of the media tool. -/
def normalizeAndBoostAudio (w : World) (inputFile outputFile : GoString) (volumeScale : Int)
    (tr : List Action) : List Action × Option GoString :=
  let cmd := Action.Run (boostArgv inputFile outputFile volumeScale)
  (tr ++ [cmd], w.result tr cmd)

/-- The command line of `applyDynaudnorm` (line 138). -/
def dynaudnormArgv (inputFile outputFile : GoString) : List GoString :=
  ["ffmpeg".toList, "-i".toList, inputFile, "-c:v".toList, "copy".toList, "-af".toList,
    "dynaudnorm".toList, "-c:a".toList, "aac".toList, "-strict".toList, "experimental".toList,
    "-b:a".toList, "192k".toList, outputFile]

/-- `applyDynaudnorm` (lines 136–141): one run of the media tool. -/
def applyDynaudnorm (w : World) (inputFile outputFile : GoString) (tr : List Action) :
    List Action × Option GoString :=
  let cmd := Action.Run (dynaudnormArgv inputFile outputFile)
  (tr ++ [cmd], w.result tr cmd)

/-- The manifest line of one file (line 156): the filename between apostrophes after
the word `file`, ended by a newline. -/
def manifestLine (filename : GoString) : GoString :=
  "file ".toList ++ [apostrophe] ++ filename ++ [apostrophe, newline]

/-- The loop of lines 155–160 of `combineVideos`: one `WriteString` per filename,
left at the first error. -/
def writeFileList (w : World) (fileList : GoString) :
    List GoString → List Action → List Action × Option GoString
  | [], tr => (tr, none)
  | filename :: rest, tr =>
    let a := Action.WriteString fileList (manifestLine filename)
    match w.result tr a with
    | some err => (tr ++ [a], some ("could not write to file list: ".toList ++ err))
    | none => writeFileList w fileList rest (tr ++ [a])

/-- The command line of the concatenation (line 163). -/
def concatArgv (fileList outputFile : GoString) : List GoString :=
  ["ffmpeg".toList, "-f".toList, "concat".toList, "-safe".toList, "0".toList, "-i".toList,
    fileList, "-c:v".toList, "libx264".toList, "-c:a".toList, "aac".toList, "-strict".toList,
    "experimental".toList, "-b:a".toList, "192k".toList, outputFile]

/-- `combineVideos` (lines 145–170). -/
def combineVideos (w : World) (filenames : List GoString) (outputFile : GoString)
    (tr : List Action) : List Action × Option GoString :=
  let fileList := "videos.txt".toList
  match w.result tr (.Create fileList) with
  | some err => (tr ++ [.Create fileList], some ("could not create file list: ".toList ++ err))
  | none =>
    match writeFileList w fileList filenames (tr ++ [.Create fileList]) with
    | (tr, some err) => (tr, some err)
    | (tr, none) =>
      let concatCmd := Action.Run (concatArgv fileList outputFile)
      match w.result tr concatCmd with
      | some err => (tr ++ [concatCmd], some ("error combining videos: ".toList ++ err))
      | none => (tr ++ [concatCmd], none)

/-- The name of the boosted file of index `i` (line 180). -/
def boostedName (folder : GoString) (i : Nat) : GoString :=
  folder ++ "/boosted_".toList ++ (Nat.repr i).toList ++ ".mp4".toList

/-- The loop of lines 179–187 of `combineAndBoostVolume`, from index `i` on:
`boostedFiles` holds the entries written so far. The result is the error of the
first failing boost, or the filled `boostedFiles`. -/
def boostLoop (w : World) (folder : GoString) (volumeScale : Int) :
    List GoString → Nat → List GoString → List Action →
      List Action × Except GoString (List GoString)
  | [], _, boostedFiles, tr => (tr, .ok boostedFiles)
  | filename :: rest, i, boostedFiles, tr =>
    let boostedFile := boostedName folder i
    match normalizeAndBoostAudio w filename boostedFile volumeScale tr with
    | (tr, some err) =>
      (tr, .error ("error boosting audio for video ".toList ++ filename ++ ": ".toList ++ err))
    | (tr, none) => boostLoop w folder volumeScale rest (i + 1) (boostedFiles ++ [boostedFile]) tr

/-- `combineAndBoostVolume` (lines 175–202). -/
def combineAndBoostVolume (w : World) (filenames : List GoString) (folder output : GoString)
    (volumeScale : Int) (tr : List Action) : List Action × Option GoString :=
  match boostLoop w folder volumeScale filenames 0 [] tr with
  | (tr, .error err) => (tr, some err)
  | (tr, .ok boostedFiles) =>
    let combinedOutput := "combined_output.mp4".toList
    match combineVideos w boostedFiles combinedOutput tr with
    | (tr, some err) => (tr, some ("error combining videos: ".toList ++ err))
    | (tr, none) =>
      match applyDynaudnorm w combinedOutput output tr with
      | (tr, some err) => (tr, some ("error normalizing audio: ".toList ++ err))
      | (tr, none) =>
        (tr ++ [.Printf ("Successfully created output file: ".toList ++ output ++ [newline])],
          none)

/-- How the process ends. -/
inductive Exit where
  /-- `main` returns: exit status 0 -/
  | ok
  /-- `log.Fatal` / `log.Fatalf` with the logged message: exit status 1 -/
  | fatal (msg : GoString)
  /-- an unrecovered panic: exit status 2 -/
  | panic (msg : GoString)
  deriving DecidableEq, Repr

/-- The name of the downloaded file of index `index` (line 56). -/
def downloadName (folderName : GoString) (index : Nat) : GoString :=
  folderName ++ "/".toList ++ (Nat.repr index).toList ++ ".mp4".toList

/-- The loop of lines 55–62 of `main`, from index `index` on; `filenames` holds the
names appended so far. -/
def downloadLoop (w : World) (folderName : GoString) :
    List GoString → Nat → List GoString → List Action →
      List Action × Except Exit (List GoString)
  | [], _, filenames, tr => (tr, .ok filenames)
  | link :: rest, index, filenames, tr =>
    let filename := downloadName folderName index
    let filenames := filenames ++ [filename]
    match downloadVideo w link filename tr with
    | (tr, .panicked msg) => (tr, .error (.panic msg))
    | (tr, .returned (some err)) =>
      (tr, .error (.fatal ("Error downloading video:".toList ++ err)))
    | (tr, .returned none) => downloadLoop w folderName rest (index + 1) filenames tr

/-- Lines 54–65 of `main`: download every link, then boost, combine and normalise. -/
def mainPipeline (w : World) (links : List GoString) (folderName output : GoString)
    (tr : List Action) : List Action × Exit :=
  match downloadLoop w folderName links 0 [] tr with
  | (tr, .error e) => (tr, e)
  | (tr, .ok filenames) =>
    match combineAndBoostVolume w filenames folderName output 5 tr with
    | (tr, some err) => (tr, .fatal ("Error: ".toList ++ err))
    | (tr, none) => (tr, .ok)

/-- The body of `main` from line 33 on, for the contents `data` of the input file,
the dated folder `folderName` (present or just created) and the output path. -/
def main (w : World) (data folderName output : GoString) : List Action × Exit :=
  mainPipeline w (deduplicatedLinks data) folderName output []

/-! ## Specification-side definitions -/

/-- Specification of deduplication, in the words of the specification: `xs` with
every element removed that already occurs at an earlier position of `xs`. -/
def dropRepeats (xs : List GoString) : List GoString :=
  (xs.enum.filter fun p => !(xs.take p.1).contains p.2).map Prod.snd

/-- A string the pattern matches as a whole: characters accepted by the items of
the head, one by one, followed by at least one character, all accepted by the
repeated class. -/
def FullMatch (re : Regexp) (m : GoString) : Prop :=
  ∃ h r, m = h ++ r ∧ List.Forall₂ (fun p c => p.accepts c = true) re.head h ∧
    r ≠ [] ∧ ∀ c ∈ r, re.rep.accepts c = true

/-- `Scan L text ms`: `ms` is the list, in order of appearance, of the
non-overlapping, leftmost, maximal substrings of `text` that belong to `L`.
Either no substring of `text` belongs to `L` and `ms` is empty; or `text` splits
into `gap ++ m ++ rest` where `m` belongs to `L`, no substring belonging to `L`
starts before `m` (leftmost), none starting where `m` starts is longer (maximal),
and the scan goes on in `rest`, behind `m` (non-overlapping). -/
inductive Scan (L : GoString → Prop) : GoString → List GoString → Prop where
  | done {text : GoString} (none_left : ∀ pre m suf, text = pre ++ m ++ suf → ¬ L m) :
      Scan L text []
  | step {text : GoString} (gap m rest : GoString) {ms : List GoString}
      (split : text = gap ++ m ++ rest)
      (isLink : L m)
      (leftmost : ∀ pre m' suf, text = pre ++ m' ++ suf → L m' → gap.length ≤ pre.length)
      (maximal : ∀ m' suf, m ++ rest = m' ++ suf → L m' → m'.length ≤ m.length)
      (tail : Scan L rest ms) :
      Scan L text (m :: ms)

/-- The literal prefix of a link. -/
def linkPrefix : GoString := "https://www.youtube.com/".toList

/-- Specification of a link, in the words of the specification: the literal prefix
followed by one or more characters, each different from the double quote and from
the backslash. -/
def SpecLink (m : GoString) : Prop :=
  ∃ t, m = linkPrefix ++ t ∧ t ≠ [] ∧ ∀ c ∈ t, c ≠ dquote ∧ c ≠ backslash

/-- A link with the vertical bar excluded as well: the literal prefix followed by one
or more characters, each different from the double quote, the vertical bar and the
backslash. -/
def BarLink (m : GoString) : Prop :=
  ∃ t, m = linkPrefix ++ t ∧ t ≠ [] ∧ ∀ c ∈ t, c ≠ dquote ∧ c ≠ '|' ∧ c ≠ backslash

/-- Whether the head of the link pattern matches in `text` only where the literal
prefix stands: at every position, either the head does not match or the text goes
on with the literal prefix. -/
def literalPrefixesOnly (text : GoString) : Bool :=
  text.tails.all fun s => (matchHead youtubePattern.head s).isNone || linkPrefix.isPrefixOf s

/-- The boost of the file of index `i`: one run of the media tool that reads
`filename`, scales the volume and writes the boosted file of index `i`. -/
def boostAction (folder : GoString) (volumeScale : Int) (i : Nat) (filename : GoString) :
    Action :=
  .Run (boostArgv filename (boostedName folder i) volumeScale)

/-- The boosts of a list of files whose first index is `i`, in order. -/
def boostActionsFrom (folder : GoString) (volumeScale : Int) : Nat → List GoString → List Action
  | _, [] => []
  | i, filename :: rest =>
    boostAction folder volumeScale i filename :: boostActionsFrom folder volumeScale (i + 1) rest

/-- The boosts of all files, index 0 first. -/
def boostActions (folder : GoString) (volumeScale : Int) (filenames : List GoString) :
    List Action :=
  boostActionsFrom folder volumeScale 0 filenames

/-- An example world for the pipeline abort: the media tool fails with
`exit status 1` when asked to boost `2.mp4` of folder `d`, and every other call
succeeds. -/
def failingWorld : World where
  result := fun _ a =>
    if a = boostAction "d".toList 5 2 "d/2.mp4".toList then some "exit status 1".toList else none
  video := fun _ videoID => { ID := videoID, Formats := [{ ItagNo := 18, AudioChannels := 2 }] }
  sortFormats := fun l => l
  sortFormats_perm := fun l => List.Perm.refl l

/-- A property of every step of a run: it holds for each action of `acts`, taken
with the actions performed before it (`past`, then the earlier actions of `acts`). -/
def AlongRun (P : List Action → Action → Prop) (past acts : List Action) : Prop :=
  ∀ i (h : i < acts.length), P (past ++ acts.take i) acts[i]

/-- Every external call of the run `acts`, started from nothing, succeeds: the world
answers each of them, at the moment it is made, with a nil error. Calls that are not
part of the run are not constrained. -/
def CallsSucceed (w : World) (acts : List Action) : Prop :=
  AlongRun (fun past a => w.result past a = none) [] acts

/-- Whether the answer to an action offers audio: the metadata returned for a
`GetVideo` request holds a format with an audio channel; nothing is asked of any
other action. -/
def answersWithAudio (w : World) (past : List Action) : Action → Bool
  | .GetVideo videoID => (w.video past videoID).Formats.any fun f => decide (0 < f.AudioChannels)
  | _ => true

/-- Every video requested in the run `acts`, started from nothing, comes back with a
format that has an audio channel. Videos that are not requested are not constrained. -/
def VideosHaveAudio (w : World) (acts : List Action) : Prop :=
  AlongRun (fun past a => answersWithAudio w past a = true) [] acts

/-- The file of ordinal `i` in folder `F`: `F/i.mp4`. -/
def ordinalFile (F : GoString) (i : Nat) : GoString :=
  F ++ "/".toList ++ (Nat.repr i).toList ++ ".mp4".toList

/-- The boosted file of ordinal `i` in folder `F`: `F/boosted_i.mp4`. -/
def boostedFile (F : GoString) (i : Nat) : GoString :=
  F ++ "/boosted_".toList ++ (Nat.repr i).toList ++ ".mp4".toList

/-- The download of `link` to `F/i.mp4`, started after the actions `past`: the
metadata request for the identifier of the link, the stream request for the first
format, in the order of the client library, among the formats with an audio channel,
the creation of `F/i.mp4` and the copy of the stream into it. -/
def expectedDownload (w : World) (link F : GoString) (i : Nat) (past : List Action) :
    List Action :=
  let videoID := (extractId link).1
  let video := w.video past videoID
  let format := (w.sortFormats (video.Formats.filter fun f => decide (0 < f.AudioChannels))).headD
    { ItagNo := 0, AudioChannels := 0 }
  [.GetVideo videoID, .GetStream video format, .Create (ordinalFile F i),
    .Copy (ordinalFile F i)]

/-- The downloads of the links of ordinal `i`, `i + 1`, … in order, started after the
actions `past`. -/
def expectedDownloads (w : World) (F : GoString) :
    Nat → List GoString → List Action → List Action
  | _, [], _ => []
  | i, link :: rest, past =>
    expectedDownload w link F i past ++
      expectedDownloads w F (i + 1) rest (past ++ expectedDownload w link F i past)

/-- The boost of `F/i.mp4` into `F/boosted_i.mp4` with volume factor 5: the run of
`ffmpeg` with the H.264 video codec at 30 frames per second, the filter `volume=5`
and the AAC audio codec at 192k. -/
def expectedBoost (F : GoString) (i : Nat) : Action :=
  .Run ["ffmpeg".toList, "-i".toList, ordinalFile F i, "-c:v".toList, "libx264".toList,
    "-vf".toList, "fps=30".toList, "-af".toList, "volume=5".toList, "-c:a".toList,
    "aac".toList, "-strict".toList, "experimental".toList, "-b:a".toList, "192k".toList,
    boostedFile F i]

/-- The line of the manifest `videos.txt` for the boosted file of ordinal `i`:
`file 'F/boosted_i.mp4'` and a newline. -/
def expectedManifestLine (F : GoString) (i : Nat) : Action :=
  .WriteString "videos.txt".toList ("file '".toList ++ boostedFile F i ++ "'\n".toList)

/-- The concatenation: the run of `ffmpeg` with the concat demuxer on the manifest
`videos.txt`, unsafe paths allowed, producing `combined_output.mp4`. -/
def expectedConcat : Action :=
  .Run ["ffmpeg".toList, "-f".toList, "concat".toList, "-safe".toList, "0".toList,
    "-i".toList, "videos.txt".toList, "-c:v".toList, "libx264".toList, "-c:a".toList,
    "aac".toList, "-strict".toList, "experimental".toList, "-b:a".toList, "192k".toList,
    "combined_output.mp4".toList]

/-- The normalisation of `combined_output.mp4` into `O`: the run of `ffmpeg` that
copies the video stream and applies the filter `dynaudnorm`. -/
def expectedNormalize (O : GoString) : Action :=
  .Run ["ffmpeg".toList, "-i".toList, "combined_output.mp4".toList, "-c:v".toList,
    "copy".toList, "-af".toList, "dynaudnorm".toList, "-c:a".toList, "aac".toList,
    "-strict".toList, "experimental".toList, "-b:a".toList, "192k".toList, O]

/-- The success message naming `O`. -/
def expectedMessage (O : GoString) : Action :=
  .Printf ("Successfully created output file: ".toList ++ O ++ "\n".toList)

/-- The external calls of a successful run for the distinct links `links`, in order:
the downloads of the links to `F/0.mp4`, `F/1.mp4`, …; the boosts of these files; the
creation of the manifest `videos.txt` and its lines; one concatenation; one
normalisation into `O`. -/
def expectedCalls (w : World) (links : List GoString) (F O : GoString) : List Action :=
  expectedDownloads w F 0 links []
    ++ (List.range links.length).map (expectedBoost F)
    ++ [.Create "videos.txt".toList]
    ++ (List.range links.length).map (expectedManifestLine F)
    ++ [expectedConcat, expectedNormalize O]

/-- The whole sequence of external actions of a successful run: the external calls,
then the success message, once. -/
def expectedRun (w : World) (links : List GoString) (F O : GoString) : List Action :=
  expectedCalls w links F O ++ [expectedMessage O]

/-- An example world: the client refuses the video `zzz` and returns for the video
`yyy` a single format without audio; every other video has a video-only format and
two formats with audio, and every other call succeeds. The library order is taken
to be the reverse of the listing. -/
def pickyWorld : World where
  result := fun _ a =>
    if a = .GetVideo "zzz".toList then some "video unavailable".toList else none
  video := fun _ videoID =>
    if videoID = "yyy".toList then
      { ID := videoID, Formats := [{ ItagNo := 137, AudioChannels := 0 }] }
    else
      { ID := videoID
        Formats := [{ ItagNo := 18, AudioChannels := 2 }, { ItagNo := 137, AudioChannels := 0 },
          { ItagNo := 140, AudioChannels := 2 }] }
  sortFormats := fun l => l.reverse
  sortFormats_perm := fun l => List.reverse_perm l

/-- A world in which every external call succeeds and every video has one format,
with two audio channels. -/
def quietWorld : World where
  result := fun _ _ => none
  video := fun _ videoID => { ID := videoID, Formats := [{ ItagNo := 18, AudioChannels := 2 }] }
  sortFormats := fun l => l
  sortFormats_perm := fun l => List.Perm.refl l

/-- The characters of a URL (RFC 3986): letters, digits and the unreserved and
reserved punctuation marks. Blanks, the double quote, the vertical bar and the
backslash are not among them. -/
def urlChar (c : Char) : Bool :=
  c.isAlphanum || "-._~:/?#[]@!$&()*+,;=%".toList.contains c || c == apostrophe

/-- A well-formed watch URL: the literal prefix `https://www.youtube.com/watch?v=`
followed by at least one character, all of them URL characters. -/
def WatchURL (u : GoString) : Prop :=
  ∃ id, u = linkPrefix ++ "watch?v=".toList ++ id ∧ id ≠ [] ∧ ∀ c ∈ id, urlChar c = true

/-- Non-matching text: in the text `g ++ rest`, no match of the link pattern begins
at a position of the gap `g`. -/
def NoMatchBegins (g rest : GoString) : Prop :=
  ∀ s ∈ g.tails, s ≠ [] → matchAt youtubePattern (s ++ rest) = none

/-- A crafted text: URL occurrences, each followed by a gap. -/
def blob : List (GoString × GoString) → GoString
  | [] => []
  | (u, g) :: rest => u ++ g ++ blob rest

/-- Whether a link can end right before `t`: the text ends there, or goes on with one
of the characters the link pattern excludes. -/
def EndsLink (t : GoString) : Prop :=
  ∀ c ∈ t.head?, c = dquote ∨ c = '|' ∨ c = backslash

/-- Every URL occurrence of the crafted text is directly followed by the end of the
text or by a double quote, a vertical bar or a backslash. -/
def Delimited : List (GoString × GoString) → Prop
  | [] => True
  | (_, g) :: rest => EndsLink (g ++ blob rest) ∧ Delimited rest

/-- No match of the link pattern begins inside any of the gaps of the crafted
text. -/
def GapsClean : List (GoString × GoString) → Prop
  | [] => True
  | (_, g) :: rest => NoMatchBegins g (blob rest) ∧ GapsClean rest

/-! ## Theorems -/

/-! ### `deduplicate` -/

theorem deduplicate_concat (xs : List GoString) (x : GoString) :
    deduplicate (xs ++ [x]) =
      if x ∈ deduplicate xs then deduplicate xs else deduplicate xs ++ [x] := by
  simp [deduplicate, List.foldl_append]

theorem mem_deduplicate {xs : List GoString} {x : GoString} :
    x ∈ deduplicate xs ↔ x ∈ xs := by
  induction xs using List.reverseRecOn with
  | nil => simp [deduplicate]
  | append_singleton xs y ih =>
    rw [deduplicate_concat]
    by_cases hy : y ∈ deduplicate xs
    · rw [if_pos hy]
      constructor
      · intro h
        exact List.mem_append_left _ (ih.mp h)
      · intro h
        rcases List.mem_append.mp h with h | h
        · exact ih.mpr h
        · rw [List.mem_singleton.mp h]
          exact hy
    · rw [if_neg hy]
      simp only [List.mem_append, ih]

theorem deduplicate_concat_of_mem {xs : List GoString} {x : GoString} (h : x ∈ xs) :
    deduplicate (xs ++ [x]) = deduplicate xs := by
  rw [deduplicate_concat, if_pos (mem_deduplicate.mpr h)]

theorem deduplicate_concat_of_not_mem {xs : List GoString} {x : GoString} (h : x ∉ xs) :
    deduplicate (xs ++ [x]) = deduplicate xs ++ [x] := by
  rw [deduplicate_concat, if_neg (fun h' => h (mem_deduplicate.mp h'))]

theorem nodup_deduplicate (xs : List GoString) : (deduplicate xs).Nodup := by
  induction xs using List.reverseRecOn with
  | nil => simp [deduplicate]
  | append_singleton xs y ih =>
    by_cases hy : y ∈ xs
    · rw [deduplicate_concat_of_mem hy]
      exact ih
    · rw [deduplicate_concat_of_not_mem hy]
      refine List.Nodup.append ih (List.nodup_singleton y) ?_
      intro a ha hay
      rw [List.mem_singleton.mp hay] at ha
      exact hy (mem_deduplicate.mp ha)

theorem dropRepeats_concat (xs : List GoString) (x : GoString) :
    dropRepeats (xs ++ [x]) = dropRepeats xs ++ (if x ∈ xs then [] else [x]) := by
  have hfilter : (xs.enum.filter fun p => !((xs ++ [x]).take p.1).contains p.2) =
      (xs.enum.filter fun p => !(xs.take p.1).contains p.2) := by
    apply List.filter_congr
    intro p hp
    have hlt : p.1 < xs.length := by
      obtain ⟨i, a⟩ := p
      exact (List.mk_mem_enum_iff_getElem?.mp hp |> List.getElem?_eq_some_iff.mp).1
    rw [List.take_append_of_le_length (Nat.le_of_lt hlt)]
  unfold dropRepeats
  rw [List.enum_append, List.filter_append, List.map_append, hfilter]
  congr 1
  by_cases hx : x ∈ xs <;> simp [List.enumFrom, hx]

theorem deduplicate_eq_dropRepeats (xs : List GoString) : deduplicate xs = dropRepeats xs := by
  induction xs using List.reverseRecOn with
  | nil => rfl
  | append_singleton xs y ih =>
    rw [dropRepeats_concat, ← ih]
    by_cases hy : y ∈ xs
    · rw [deduplicate_concat_of_mem hy, if_pos hy, List.append_nil]
    · rw [deduplicate_concat_of_not_mem hy, if_neg hy]

theorem indexOf_append_left {xs ys : List GoString} {a : GoString} (h : a ∈ xs) :
    (xs ++ ys).indexOf a = xs.indexOf a := by
  have hlt : xs.findIdx (fun x => x == a) < xs.length :=
    List.findIdx_lt_length.mpr ⟨a, h, by simp⟩
  show (xs ++ ys).findIdx (fun x => x == a) = xs.findIdx (fun x => x == a)
  rw [List.findIdx_append, if_pos hlt]

theorem indexOf_lt_length_of_mem {xs : List GoString} {a : GoString} (h : a ∈ xs) :
    xs.indexOf a < xs.length :=
  List.findIdx_lt_length.mpr ⟨a, h, by simp⟩

theorem indexOf_concat_self {xs : List GoString} {a : GoString} (h : a ∉ xs) :
    (xs ++ [a]).indexOf a = xs.length := by
  have heq : xs.findIdx (fun x => x == a) = xs.length := by
    apply List.findIdx_eq_length.mpr
    intro x hx
    have hne : x ≠ a := fun e => h (e ▸ hx)
    simpa using hne
  show (xs ++ [a]).findIdx (fun x => x == a) = xs.length
  rw [List.findIdx_append, heq, if_neg (Nat.lt_irrefl _)]
  simp [List.findIdx_cons]

theorem pairwise_indexOf_deduplicate (xs : List GoString) :
    (deduplicate xs).Pairwise fun a b => xs.indexOf a < xs.indexOf b := by
  induction xs using List.reverseRecOn with
  | nil => simp [deduplicate]
  | append_singleton xs y ih =>
    have hleft : (deduplicate xs).Pairwise
        fun a b => (xs ++ [y]).indexOf a < (xs ++ [y]).indexOf b := by
      refine List.Pairwise.imp_of_mem ?_ ih
      intro a b ha hb hab
      rw [indexOf_append_left (mem_deduplicate.mp ha),
        indexOf_append_left (mem_deduplicate.mp hb)]
      exact hab
    by_cases hy : y ∈ xs
    · rw [deduplicate_concat_of_mem hy]
      exact hleft
    · rw [deduplicate_concat_of_not_mem hy]
      refine List.pairwise_append.mpr ⟨hleft, List.pairwise_singleton _ _, ?_⟩
      intro a ha b hb
      rw [List.mem_singleton.mp hb, indexOf_append_left (mem_deduplicate.mp ha),
        indexOf_concat_self hy]
      exact indexOf_lt_length_of_mem (mem_deduplicate.mp ha)

theorem deduplicate_of_nodup {xs : List GoString} (h : xs.Nodup) : deduplicate xs = xs := by
  induction xs using List.reverseRecOn with
  | nil => rfl
  | append_singleton xs y ih =>
    have hnd := List.nodup_append.mp h
    have hy : y ∉ xs := fun hmem => hnd.2.2 hmem (List.mem_singleton_self y)
    rw [deduplicate_concat_of_not_mem hy, ih hnd.1]

/-- C1: `deduplicate xs` is exactly `xs` with every element removed that already
occurs at an earlier position: it has no repeated element, every element of `xs`
occurs in it, and its elements stand in the order of their first occurrence in `xs`. -/
theorem deduplicate_spec (xs : List GoString) :
    deduplicate xs = dropRepeats xs ∧
      (deduplicate xs).Nodup ∧
      (∀ x, x ∈ deduplicate xs ↔ x ∈ xs) ∧
      (deduplicate xs).Pairwise (fun a b => xs.indexOf a < xs.indexOf b) :=
  ⟨deduplicate_eq_dropRepeats xs, nodup_deduplicate xs, fun _ => mem_deduplicate,
    pairwise_indexOf_deduplicate xs⟩

/-- C8: `deduplicate` is idempotent. -/
theorem deduplicate_idempotent (xs : List GoString) :
    deduplicate (deduplicate xs) = deduplicate xs :=
  deduplicate_of_nodup (nodup_deduplicate xs)

/-! ### The matcher -/

theorem matchHead_eq_some {ps : List CharPat} {s rest : GoString} :
    matchHead ps s = some rest ↔
      ∃ h, s = h ++ rest ∧ List.Forall₂ (fun p c => p.accepts c = true) ps h := by
  induction ps generalizing s with
  | nil =>
    simp only [matchHead, Option.some.injEq, List.forall₂_nil_left_iff]
    constructor
    · intro h
      exact ⟨[], by simp [h], rfl⟩
    · rintro ⟨h, hs, rfl⟩
      simpa using hs
  | cons p ps ih =>
    cases s with
    | nil =>
      simp only [matchHead, List.forall₂_cons_left_iff]
      constructor
      · intro h
        cases h
      · rintro ⟨h, hs, b, u, _, _, rfl⟩
        simp at hs
    | cons c s =>
      simp only [matchHead, List.forall₂_cons_left_iff]
      by_cases hc : p.accepts c = true
      · rw [if_pos hc, ih]
        constructor
        · rintro ⟨h, rfl, hall⟩
          exact ⟨c :: h, rfl, c, h, hc, hall, rfl⟩
        · rintro ⟨h, hs, b, u, _, hall, rfl⟩
          simp only [List.cons_append, List.cons.injEq] at hs
          exact ⟨u, hs.2, hall⟩
      · rw [if_neg hc]
        constructor
        · intro h
          cases h
        · rintro ⟨h, hs, b, u, hb, _, rfl⟩
          simp only [List.cons_append, List.cons.injEq] at hs
          rw [← hs.1] at hb
          exact absurd hb hc

theorem matchAt_eq_some {re : Regexp} {s h r : GoString} :
    matchAt re s = some (h, r) ↔
      ∃ rest, s = h ++ rest ∧ List.Forall₂ (fun p c => p.accepts c = true) re.head h ∧
        r = rest.takeWhile re.rep.accepts ∧ r ≠ [] := by
  unfold matchAt
  cases hm : matchHead re.head s with
  | none =>
    constructor
    · intro hres
      cases hres
    · rintro ⟨rest, hs, hall, -, -⟩
      have : matchHead re.head s = some rest := matchHead_eq_some.mpr ⟨h, hs, hall⟩
      rw [hm] at this
      cases this
  | some rest =>
    dsimp only
    obtain ⟨h₀, hs₀, hall₀⟩ := matchHead_eq_some.mp hm
    have htake : s.take re.head.length = h₀ := by
      rw [hs₀]
      exact List.take_left' hall₀.length_eq.symm
    constructor
    · intro hres
      cases htw : rest.takeWhile re.rep.accepts with
      | nil => rw [htw] at hres; cases hres
      | cons c run =>
        rw [htw] at hres
        simp only [Option.some.injEq, Prod.mk.injEq] at hres
        refine ⟨rest, ?_, ?_, ?_, ?_⟩
        · rw [← hres.1, htake]; exact hs₀
        · rw [← hres.1, htake]; exact hall₀
        · rw [htw]; exact hres.2.symm
        · rw [← hres.2]; exact List.cons_ne_nil _ _
    · rintro ⟨rest', hs, hall, hr, hne⟩
      have hlen : h.length = h₀.length := by
        rw [← hall.length_eq, ← hall₀.length_eq]
      have hinj := List.append_inj (hs.symm.trans hs₀) hlen
      rw [← hinj.2, ← hr]
      cases r with
      | nil => exact absurd rfl hne
      | cons c run =>
        simp only [Option.some.injEq, Prod.mk.injEq, and_true]
        rw [htake]
        exact hinj.1.symm

theorem fullMatch_of_matchAt {re : Regexp} {s h r : GoString}
    (hm : matchAt re s = some (h, r)) : FullMatch re (h ++ r) := by
  obtain ⟨rest, -, hall, hr, hne⟩ := matchAt_eq_some.mp hm
  refine ⟨h, r, rfl, hall, hne, ?_⟩
  intro c hc
  rw [hr] at hc
  exact List.mem_takeWhile_imp hc

theorem split_of_matchAt {re : Regexp} {s h r : GoString}
    (hm : matchAt re s = some (h, r)) : s = (h ++ r) ++ s.drop (h ++ r).length := by
  obtain ⟨rest, hs, -, hr, -⟩ := matchAt_eq_some.mp hm
  have hrest : rest = r ++ rest.dropWhile re.rep.accepts := by
    rw [hr]
    exact (List.takeWhile_append_dropWhile _ _).symm
  have hs' : s = (h ++ r) ++ rest.dropWhile re.rep.accepts := by
    rw [List.append_assoc, ← hrest]
    exact hs
  have hdrop : s.drop (h ++ r).length = rest.dropWhile re.rep.accepts := by
    conv_lhs => rw [hs']
    exact List.drop_left' rfl
  rw [hdrop]
  exact hs'

/-- A full match at the start of `s` is found by `matchAt`, and the match found
there is at least as long. -/
theorem matchAt_of_fullMatch {re : Regexp} {s m suf : GoString}
    (hs : s = m ++ suf) (hm : FullMatch re m) :
    ∃ h r, matchAt re s = some (h, r) ∧ m.length ≤ (h ++ r).length := by
  obtain ⟨h, r, rfl, hall, hne, hacc⟩ := hm
  have htw : (r ++ suf).takeWhile re.rep.accepts = r ++ suf.takeWhile re.rep.accepts :=
    List.takeWhile_append_of_pos hacc
  refine ⟨h, r ++ suf.takeWhile re.rep.accepts, ?_, ?_⟩
  · refine matchAt_eq_some.mpr ⟨r ++ suf, ?_, hall, htw.symm, ?_⟩
    · rw [hs, List.append_assoc]
    · intro hnil
      exact hne (List.append_eq_nil.mp hnil).1
  · simp only [List.length_append]
    omega

theorem matchAt_eq_none {re : Regexp} {s : GoString} :
    matchAt re s = none ↔ ∀ m suf, s = m ++ suf → ¬ FullMatch re m := by
  constructor
  · intro hnone m suf hs hm
    obtain ⟨h, r, hsome, -⟩ := matchAt_of_fullMatch hs hm
    rw [hnone] at hsome
    cases hsome
  · intro hno
    cases hm : matchAt re s with
    | none => rfl
    | some p =>
      obtain ⟨h, r⟩ := p
      exact absurd (fullMatch_of_matchAt hm) (hno _ _ (split_of_matchAt hm))

theorem fullMatch_ne_nil {re : Regexp} {m : GoString} (hm : FullMatch re m) : m ≠ [] := by
  obtain ⟨h, r, rfl, -, hne, -⟩ := hm
  intro hnil
  exact hne (List.append_eq_nil.mp hnil).2

/-! ### The scan of `FindAllString` -/

theorem findAllFrom_eq_drop (re : Regexp) (k : Nat) (s : GoString) :
    findAllFrom re k s = findAllFrom re 0 (s.drop k) := by
  induction s generalizing k with
  | nil => cases k <;> rfl
  | cons c s ih =>
    cases k with
    | zero => rfl
    | succ k => simpa [findAllFrom] using ih k

theorem FindAllString_nil (re : Regexp) : re.FindAllString [] = [] := rfl

theorem FindAllString_cons_of_none {re : Regexp} {c : Char} {s : GoString}
    (hm : matchAt re (c :: s) = none) :
    re.FindAllString (c :: s) = re.FindAllString s := by
  simp [Regexp.FindAllString, findAllFrom, hm]

theorem FindAllString_of_some {re : Regexp} {s h r : GoString}
    (hm : matchAt re s = some (h, r)) :
    re.FindAllString s = (h ++ r) :: re.FindAllString (s.drop (h ++ r).length) := by
  cases s with
  | nil =>
    exact absurd (List.append_eq_nil.mp (split_of_matchAt hm).symm).1
      (fullMatch_ne_nil (fullMatch_of_matchAt hm))
  | cons c s =>
    have hpos : 0 < (h ++ r).length :=
      List.length_pos.mpr (fullMatch_ne_nil (fullMatch_of_matchAt hm))
    have hlen : (h ++ r).length = (h.length + r.length - 1) + 1 := by
      rw [List.length_append] at hpos ⊢
      omega
    simp only [Regexp.FindAllString, findAllFrom, hm]
    rw [findAllFrom_eq_drop, hlen, List.drop_succ_cons]

theorem Scan.cons_of_no_match {L : GoString → Prop} {c : Char} {s : GoString}
    {ms : List GoString} (hno : ∀ m suf, c :: s = m ++ suf → ¬ L m) (hscan : Scan L s ms) :
    Scan L (c :: s) ms := by
  cases hscan with
  | done none_left =>
    refine Scan.done ?_
    intro pre m suf hsplit
    cases pre with
    | nil => exact hno m suf (by simpa using hsplit)
    | cons d pre =>
      simp only [List.cons_append, List.cons.injEq] at hsplit
      exact none_left pre m suf hsplit.2
  | step gap m rest split isLink leftmost maximal tail =>
    refine Scan.step (c :: gap) m rest (by rw [split]; rfl) isLink ?_ maximal tail
    intro pre m' suf hsplit hm'
    cases pre with
    | nil => exact absurd hm' (hno m' suf (by simpa using hsplit))
    | cons d pre =>
      simp only [List.cons_append, List.cons.injEq] at hsplit
      have := leftmost pre m' suf hsplit.2 hm'
      simpa using this

theorem scan_FindAllString_aux (re : Regexp) (n : Nat) :
    ∀ text : GoString, text.length ≤ n → Scan (FullMatch re) text (re.FindAllString text) := by
  induction n with
  | zero =>
    intro text hlen
    have hnil : text = [] := List.length_eq_zero.mp (Nat.le_zero.mp hlen)
    subst hnil
    refine Scan.done ?_
    intro pre m suf hsplit hm
    have hm_nil : m = [] := by
      have h1 := List.append_eq_nil.mp hsplit.symm
      exact (List.append_eq_nil.mp h1.1).2
    exact fullMatch_ne_nil hm hm_nil
  | succ n ih =>
    intro text hlen
    cases text with
    | nil => exact ih [] (Nat.zero_le _)
    | cons c s =>
      have hs : s.length ≤ n := by simpa using hlen
      cases hm : matchAt re (c :: s) with
      | none =>
        rw [FindAllString_cons_of_none hm]
        exact Scan.cons_of_no_match (matchAt_eq_none.mp hm) (ih s hs)
      | some p =>
        obtain ⟨h, r⟩ := p
        rw [FindAllString_of_some hm]
        have hsplit := split_of_matchAt hm
        have hpos : 0 < (h ++ r).length :=
          List.length_pos.mpr (fullMatch_ne_nil (fullMatch_of_matchAt hm))
        have hrest : ((c :: s).drop (h ++ r).length).length ≤ n := by
          rw [List.length_drop]
          simp only [List.length_cons] at hlen ⊢
          omega
        refine Scan.step [] (h ++ r) _ (by simpa using hsplit) (fullMatch_of_matchAt hm)
          (fun _ _ _ _ _ => Nat.zero_le _) ?_ (ih _ hrest)
        intro m' suf hsplit' hm'
        obtain ⟨h', r', hsome, hle⟩ := matchAt_of_fullMatch (hsplit.trans hsplit') hm'
        rw [hm] at hsome
        simp only [Option.some.injEq, Prod.mk.injEq] at hsome
        rw [hsome.1, hsome.2]
        exact hle

/-- The list computed by `FindAllString` is a leftmost, maximal, non-overlapping
scan of the text for the strings the pattern matches as a whole. -/
theorem scan_FindAllString (re : Regexp) (text : GoString) :
    Scan (FullMatch re) text (re.FindAllString text) :=
  scan_FindAllString_aux re text.length text (Nat.le_refl _)

theorem Scan.unique {L : GoString → Prop} {text : GoString} {ms ms' : List GoString}
    (h : Scan L text ms) (h' : Scan L text ms') : ms = ms' := by
  induction h generalizing ms' with
  | done none_left =>
    cases h' with
    | done _ => rfl
    | step gap m rest split isLink _ _ _ => exact absurd isLink (none_left gap m rest split)
  | step gap m rest split isLink leftmost maximal tail ih =>
    cases h' with
    | done none_left => exact absurd isLink (none_left gap m rest split)
    | step gap' m' rest' split' isLink' leftmost' maximal' tail' =>
      have hgap : gap.length = gap'.length :=
        Nat.le_antisymm (leftmost gap' m' rest' split' isLink')
          (leftmost' gap m rest split isLink)
      have heq : gap ++ (m ++ rest) = gap' ++ (m' ++ rest') := by
        rw [← List.append_assoc, ← List.append_assoc, ← split, ← split']
      have hinj := List.append_inj heq hgap
      have hm : m.length = m'.length :=
        Nat.le_antisymm (maximal' m rest hinj.2.symm isLink) (maximal m' rest' hinj.2 isLink')
      have hinj' := List.append_inj hinj.2 hm
      rw [hinj'.1, ih (hinj'.2 ▸ tail')]

/-- A scan only looks at the substrings of the text: two languages that agree on
them are scanned alike. -/
theorem Scan.congr {L L' : GoString → Prop} {text : GoString} {ms : List GoString}
    (hagree : ∀ pre m suf, text = pre ++ m ++ suf → (L m ↔ L' m)) (h : Scan L text ms) :
    Scan L' text ms := by
  induction h with
  | done none_left =>
    exact Scan.done fun pre m suf hsplit hm =>
      none_left pre m suf hsplit ((hagree pre m suf hsplit).mpr hm)
  | @step text gap m rest ms split isLink leftmost maximal tail ih =>
    refine Scan.step gap m rest split ((hagree gap m rest split).mp isLink) ?_ ?_ (ih ?_)
    · intro pre m' suf hsplit hm'
      exact leftmost pre m' suf hsplit ((hagree pre m' suf hsplit).mpr hm')
    · intro m' suf hsplit hm'
      refine maximal m' suf hsplit ((hagree gap m' suf ?_).mpr hm')
      rw [split, List.append_assoc, hsplit, List.append_assoc]
    · intro pre m' suf hsplit
      refine hagree (gap ++ m ++ pre) m' suf ?_
      rw [split, hsplit]
      simp only [List.append_assoc]

theorem Scan_iff_eq_FindAllString (re : Regexp) (text : GoString) (ms : List GoString) :
    Scan (FullMatch re) text ms ↔ ms = re.FindAllString text :=
  ⟨fun h => h.unique (scan_FindAllString re text), fun h => h ▸ scan_FindAllString re text⟩

/-! ### The link pattern -/

theorem youtubePattern_rep_accepts (c : Char) :
    youtubePattern.rep.accepts c = true ↔ c ≠ dquote ∧ c ≠ '|' ∧ c ≠ backslash := by
  simp [youtubePattern, CharPat.accepts]

theorem youtubePattern_head_linkPrefix :
    List.Forall₂ (fun p c => p.accepts c = true) youtubePattern.head linkPrefix := by
  have h : matchHead youtubePattern.head linkPrefix = some [] := by decide
  obtain ⟨h', hs, hall⟩ := matchHead_eq_some.mp h
  rw [List.append_nil] at hs
  rw [hs]
  exact hall

theorem fullMatch_of_barLink {m : GoString} (hm : BarLink m) : FullMatch youtubePattern m := by
  obtain ⟨t, rfl, hne, hall⟩ := hm
  exact ⟨linkPrefix, t, rfl, youtubePattern_head_linkPrefix, hne,
    fun c hc => (youtubePattern_rep_accepts c).mpr (hall c hc)⟩

theorem barLink_of_fullMatch {text pre m suf : GoString} (hlit : literalPrefixesOnly text = true)
    (hsplit : text = pre ++ m ++ suf) (hm : FullMatch youtubePattern m) : BarLink m := by
  obtain ⟨h, r, rfl, hall, hne, hacc⟩ := hm
  have hmem : h ++ r ++ suf ∈ text.tails := by
    rw [List.mem_tails, hsplit]
    exact ⟨pre, by simp only [List.append_assoc]⟩
  have hhead : matchHead youtubePattern.head (h ++ r ++ suf) = some (r ++ suf) :=
    matchHead_eq_some.mpr ⟨h, by simp only [List.append_assoc], hall⟩
  have hpre := List.all_eq_true.mp hlit _ hmem
  rw [hhead] at hpre
  simp only [Option.isNone_some, Bool.false_or] at hpre
  obtain ⟨t, ht⟩ := List.isPrefixOf_iff_prefix.mp hpre
  have hlen : linkPrefix.length = h.length := by
    rw [← hall.length_eq, ← youtubePattern_head_linkPrefix.length_eq]
  have hinj := List.append_inj (ht.trans (List.append_assoc h r suf)) hlen
  refine ⟨r, by rw [hinj.1], hne, fun c hc => (youtubePattern_rep_accepts c).mp (hacc c hc)⟩

theorem specLink_ne_nil {m : GoString} (hm : SpecLink m) : m ≠ [] := by
  obtain ⟨t, rfl, hne, -⟩ := hm
  intro hnil
  exact hne (List.append_eq_nil.mp hnil).2

/-- A text that is a link of the specification as a whole is scanned into itself. -/
theorem scan_specLink_self {t : GoString} (ht : SpecLink t) : Scan SpecLink t [t] := by
  refine Scan.step [] t [] (by simp) ht (fun _ _ _ _ _ => Nat.zero_le _) ?_ (Scan.done ?_)
  · intro m' suf hsplit _
    have hlen := congrArg List.length hsplit
    simp only [List.length_append, List.length_nil] at hlen
    omega
  · intro pre m suf hsplit hm
    have h1 := List.append_eq_nil.mp hsplit.symm
    exact specLink_ne_nil hm (List.append_eq_nil.mp h1.1).2

/-- The dots of the link pattern are wildcards: the pattern also matches where another
character stands in place of a dot of the prefix. -/
theorem FindAllString_dot_wildcard :
    youtubePattern.FindAllString "https://www-youtube-com/a".toList =
      ["https://www-youtube-com/a".toList] := by
  decide

/-- C9 (as stated, refuted): in the text `https://www.youtube.com/a|b` the program
finds the link `https://www.youtube.com/a`, ended by the vertical bar, whereas the
whole text is a literal prefix followed by characters other than the double quote
and the backslash: the leftmost maximal scan for such strings is the whole text, and
the list found is not that scan. -/
theorem FindAllString_not_specLink_scan :
    youtubePattern.FindAllString "https://www.youtube.com/a|b".toList =
        ["https://www.youtube.com/a".toList] ∧
      Scan SpecLink "https://www.youtube.com/a|b".toList ["https://www.youtube.com/a|b".toList] ∧
      ¬ Scan SpecLink "https://www.youtube.com/a|b".toList
          (youtubePattern.FindAllString "https://www.youtube.com/a|b".toList) := by
  have heval : youtubePattern.FindAllString "https://www.youtube.com/a|b".toList =
      ["https://www.youtube.com/a".toList] := by decide
  have hwhole : SpecLink "https://www.youtube.com/a|b".toList :=
    ⟨"a|b".toList, by decide, by decide, by decide⟩
  refine ⟨heval, scan_specLink_self hwhole, ?_⟩
  rw [heval]
  intro hscan
  have hne : ["https://www.youtube.com/a".toList] ≠ ["https://www.youtube.com/a|b".toList] := by
    decide
  exact hne (hscan.unique (scan_specLink_self hwhole))

/-- C9 (amended): in a text where the head of the link pattern matches only at
occurrences of the literal prefix `https://www.youtube.com/`, the list of links found
by the link pattern of `main` is the list of all non-overlapping, leftmost, maximal
substrings, in order of appearance, that consist of the literal prefix followed by
one or more characters each different from the double quote, the vertical bar and
the backslash. -/
theorem FindAllString_barLink_scan (text : GoString) (hlit : literalPrefixesOnly text = true)
    (ms : List GoString) :
    Scan BarLink text ms ↔ ms = youtubePattern.FindAllString text := by
  have hagree : ∀ pre m suf, text = pre ++ m ++ suf →
      (FullMatch youtubePattern m ↔ BarLink m) :=
    fun pre m suf hsplit => ⟨barLink_of_fullMatch hlit hsplit, fullMatch_of_barLink⟩
  have hscan : Scan BarLink text (youtubePattern.FindAllString text) :=
    (scan_FindAllString youtubePattern text).congr hagree
  exact ⟨fun h => h.unique hscan, fun h => h ▸ hscan⟩

/-- Witness for C9 (amended): a text with a gap, a link ended by a vertical bar and a
second link ended by a double quote. -/
theorem FindAllString_barLink_scan_witness :
    literalPrefixesOnly "x https://www.youtube.com/a|https://www.youtube.com/b\"".toList = true ∧
      Scan BarLink "x https://www.youtube.com/a|https://www.youtube.com/b\"".toList
        ["https://www.youtube.com/a".toList, "https://www.youtube.com/b".toList] :=
  ⟨by decide,
    (FindAllString_barLink_scan _ (by decide) _).mpr (by decide)⟩

theorem Scan.forall_mem {L : GoString → Prop} {text : GoString} {ms : List GoString}
    (h : Scan L text ms) : ∀ m ∈ ms, L m := by
  induction h with
  | done _ => simp
  | step gap m rest split isLink leftmost maximal tail ih =>
    intro m' hm'
    rcases List.mem_cons.mp hm' with rfl | hmem
    · exact isLink
    · exact ih m' hmem

theorem fullMatch_of_mem_FindAllString {re : Regexp} {text l : GoString}
    (h : l ∈ re.FindAllString text) : FullMatch re l :=
  (scan_FindAllString re text).forall_mem l h

/-! ### `extractId` -/

theorem findFirst_of_matchAt {re : Regexp} {s h r : GoString}
    (hm : matchAt re s = some (h, r)) : findFirst re s = some (h, r) := by
  cases s with
  | nil =>
    exact absurd (List.append_eq_nil.mp (split_of_matchAt hm).symm).1
      (fullMatch_ne_nil (fullMatch_of_matchAt hm))
  | cons c s => simp only [findFirst, hm]

theorem findFirst_eq_none {re : Regexp} {s : GoString} :
    findFirst re s = none ↔ ∀ pre m suf, s = pre ++ m ++ suf → ¬ FullMatch re m := by
  induction s with
  | nil =>
    simp only [findFirst, true_iff]
    intro pre m suf hsplit hm
    have h1 := List.append_eq_nil.mp hsplit.symm
    exact fullMatch_ne_nil hm (List.append_eq_nil.mp h1.1).2
  | cons c s ih =>
    cases hm : matchAt re (c :: s) with
    | some p =>
      obtain ⟨h, r⟩ := p
      rw [findFirst_of_matchAt hm]
      constructor
      · intro habs
        cases habs
      · intro hno
        exact absurd (fullMatch_of_matchAt hm)
          (hno [] (h ++ r) _ (by simpa using split_of_matchAt hm))
    | none =>
      simp only [findFirst, hm]
      rw [ih]
      constructor
      · intro hno pre m suf hsplit
        cases pre with
        | nil => exact matchAt_eq_none.mp hm m suf (by simpa using hsplit)
        | cons d pre =>
          simp only [List.cons_append, List.cons.injEq] at hsplit
          exact hno pre m suf hsplit.2
      · intro hno pre m suf hsplit
        exact hno (c :: pre) m suf (by rw [hsplit]; rfl)

theorem findFirst_append_of_no_match {re : Regexp} (pre s : GoString)
    (hno : ∀ k, k < pre.length → matchAt re (pre.drop k ++ s) = none) :
    findFirst re (pre ++ s) = findFirst re s := by
  induction pre with
  | nil => rfl
  | cons c pre ih =>
    have h0 : matchAt re (c :: pre ++ s) = none := hno 0 (Nat.succ_pos _)
    have hstep : findFirst re (c :: pre ++ s) = findFirst re (pre ++ s) := by
      simp only [List.cons_append] at h0 ⊢
      simp only [findFirst, h0]
    rw [hstep]
    apply ih
    intro k hk
    exact hno (k + 1) (Nat.succ_lt_succ hk)

theorem extractId_of_findFirst_none {link : GoString} (h : findFirst idPattern link = none) :
    extractId link = ([], some "cannot extract id".toList) := by
  simp [extractId, Regexp.FindStringSubmatch, h]

theorem extractId_of_findFirst_some {link h r : GoString}
    (hf : findFirst idPattern link = some (h, r)) : extractId link = (r, none) := by
  simp only [extractId, Regexp.FindStringSubmatch, hf]
  rfl

theorem idPattern_rep_accepts (c : Char) :
    idPattern.rep.accepts c = true ↔ c ≠ backslash := by
  simp [idPattern, CharPat.accepts]

theorem idPattern_head_watch :
    List.Forall₂ (fun p c => p.accepts c = true) idPattern.head "watch?v=".toList := by
  have h : matchHead idPattern.head "watch?v=".toList = some [] := by decide
  obtain ⟨h', hs, hall⟩ := matchHead_eq_some.mp h
  rw [List.append_nil] at hs
  rw [hs]
  exact hall

theorem idPattern_head_eq {h : GoString}
    (hall : List.Forall₂ (fun p c => p.accepts c = true) idPattern.head h) :
    h = "watch?v=".toList := by
  have hhead : idPattern.head = "watch?v=".toList.map CharPat.lit := rfl
  rw [hhead, List.forall₂_map_left_iff] at hall
  have heq : List.Forall₂ (fun a c => a = c) "watch?v=".toList h := by
    refine hall.imp ?_
    intro a c hac
    have hca : c = a := by simpa [CharPat.accepts] using hac
    exact hca.symm
  exact (List.forall₂_eq_eq_eq ▸ heq).symm

/-- The strings `idPattern` matches somewhere in `link`, in the words of the spec:
an occurrence of `watch?v=` followed by at least one character other than a backslash. -/
theorem exists_fullMatch_idPattern_iff (link : GoString) :
    (∃ pre m suf, link = pre ++ m ++ suf ∧ FullMatch idPattern m) ↔
      ∃ pre c suf, link = pre ++ "watch?v=".toList ++ c :: suf ∧ c ≠ backslash := by
  constructor
  · rintro ⟨pre, m, suf, hsplit, h, r, rfl, hall, hne, hacc⟩
    cases r with
    | nil => exact absurd rfl hne
    | cons c t =>
      refine ⟨pre, c, t ++ suf, ?_, ?_⟩
      · rw [hsplit, idPattern_head_eq hall]
        simp only [List.append_assoc, List.cons_append]
      · exact (idPattern_rep_accepts c).mp (hacc c (List.mem_cons_self c t))
  · rintro ⟨pre, c, suf, hsplit, hc⟩
    refine ⟨pre, "watch?v=".toList ++ [c], suf, ?_, "watch?v=".toList, [c], rfl,
      idPattern_head_watch, List.cons_ne_nil _ _, ?_⟩
    · rw [hsplit]
      simp only [List.append_assoc, List.singleton_append]
    · intro d hd
      rw [List.mem_singleton.mp hd]
      exact (idPattern_rep_accepts c).mpr hc

theorem extractId_error_iff (link : GoString) :
    extractId link = ([], some "cannot extract id".toList) ↔
      ¬ ∃ pre c suf, link = pre ++ "watch?v=".toList ++ c :: suf ∧ c ≠ backslash := by
  rw [← exists_fullMatch_idPattern_iff]
  cases hf : findFirst idPattern link with
  | none =>
    simp only [extractId_of_findFirst_none hf, true_iff]
    rintro ⟨pre, m, suf, hsplit, hm⟩
    exact findFirst_eq_none.mp hf pre m suf hsplit hm
  | some p =>
    obtain ⟨h, r⟩ := p
    rw [extractId_of_findFirst_some hf]
    constructor
    · intro habs
      simp at habs
    · intro hno
      exfalso
      apply hno
      by_contra hcontra
      have hnone : findFirst idPattern link = none :=
        findFirst_eq_none.mpr fun pre m suf hsplit hm => hcontra ⟨pre, m, suf, hsplit, hm⟩
      rw [hf] at hnone
      cases hnone

theorem extractId_ok_iff (link : GoString) :
    (extractId link).2 = none ↔
      ∃ pre c suf, link = pre ++ "watch?v=".toList ++ c :: suf ∧ c ≠ backslash := by
  constructor
  · intro hok
    by_contra hno
    rw [(extractId_error_iff link).mpr hno] at hok
    cases hok
  · intro hex
    cases hf : findFirst idPattern link with
    | none =>
      have := (extractId_error_iff link).mp (extractId_of_findFirst_none hf)
      exact absurd hex this
    | some p =>
      obtain ⟨h, r⟩ := p
      rw [extractId_of_findFirst_some hf]

theorem idPattern_no_match_in_linkPrefix (s : GoString) (k : Nat) (hk : k < linkPrefix.length) :
    matchAt idPattern (linkPrefix.drop k ++ s) = none := by
  have hlen : linkPrefix.length = 24 := rfl
  rw [hlen] at hk
  interval_cases k <;> rfl

theorem idPattern_rep_accepts_eq :
    idPattern.rep.accepts = fun c => decide (c ≠ backslash) := by
  funext c
  rw [Bool.eq_iff_iff, idPattern_rep_accepts]
  simp

/-- C3 (as stated, refuted): for the link of the claim the identifier returned is not
`abc123`; the query parameters that follow are part of it. -/
theorem extractId_example_not_abc123 :
    extractId "https://www.youtube.com/watch?v=abc123&t=5".toList =
        ("abc123&t=5".toList, none) ∧
      extractId "https://www.youtube.com/watch?v=abc123&t=5".toList ≠
        ("abc123".toList, none) := by
  decide

/-- C3 (amended): for every watch link
`https://www.youtube.com/watch?v=` ++ id ++ `&` ++ rest whose id contains no
backslash, `extractId` returns without error the whole text behind `watch?v=` up to
the first backslash: id, the ampersand, and rest up to its first backslash. -/
theorem extractId_watch_link (id rest : GoString) (hid : ∀ c ∈ id, c ≠ backslash) :
    extractId (linkPrefix ++ "watch?v=".toList ++ id ++ '&' :: rest) =
      (id ++ '&' :: rest.takeWhile (fun c => decide (c ≠ backslash)), none) := by
  have hassoc : linkPrefix ++ "watch?v=".toList ++ id ++ '&' :: rest =
      linkPrefix ++ ("watch?v=".toList ++ (id ++ '&' :: rest)) := by
    simp only [List.append_assoc]
  have hrun : (id ++ '&' :: rest).takeWhile idPattern.rep.accepts =
      id ++ '&' :: rest.takeWhile (fun c => decide (c ≠ backslash)) := by
    rw [idPattern_rep_accepts_eq, List.takeWhile_append_of_pos (by simpa using hid),
      List.takeWhile_cons, if_pos (by decide)]
  have hmatch : matchAt idPattern ("watch?v=".toList ++ (id ++ '&' :: rest)) =
      some ("watch?v=".toList, id ++ '&' :: rest.takeWhile (fun c => decide (c ≠ backslash))) := by
    refine matchAt_eq_some.mpr ⟨id ++ '&' :: rest, rfl, idPattern_head_watch, hrun.symm, ?_⟩
    intro hnil
    have := List.append_eq_nil.mp hnil
    exact List.cons_ne_nil _ _ this.2
  rw [hassoc]
  apply extractId_of_findFirst_some
  rw [findFirst_append_of_no_match linkPrefix _ (idPattern_no_match_in_linkPrefix _)]
  exact findFirst_of_matchAt hmatch

/-- Witness for C3 (amended): the link of the claim. -/
theorem extractId_watch_link_witness :
    (∀ c ∈ "abc123".toList, c ≠ backslash) ∧
      extractId (linkPrefix ++ "watch?v=".toList ++ "abc123".toList ++ '&' :: "t=5".toList) =
        ("abc123".toList ++ '&' :: "t=5".toList.takeWhile (fun c => decide (c ≠ backslash)),
          none) :=
  ⟨by decide, extractId_watch_link "abc123".toList "t=5".toList (by decide)⟩

/-- C4: `extractId` returns the error `cannot extract id`, with an empty identifier,
if and only if the link contains no occurrence of `watch?v=` followed by at least one
character other than a backslash; and whenever `extractId` fails, `downloadVideo`
returns that same error and performs no external action (no call of the video
client, no file created). -/
theorem extractId_error_and_downloadVideo (link : GoString) :
    (extractId link = ([], some "cannot extract id".toList) ↔
        ¬ ∃ pre c suf, link = pre ++ "watch?v=".toList ++ c :: suf ∧ c ≠ backslash) ∧
      ∀ (w : World) (filename : GoString) (tr : List Action) (err : GoString),
        (extractId link).2 = some err →
          downloadVideo w link filename tr = (tr, .returned (some err)) := by
  refine ⟨extractId_error_iff link, ?_⟩
  intro w filename tr err herr
  rcases hx : extractId link with ⟨videoID, e⟩
  rw [hx] at herr
  simp only at herr
  subst herr
  simp only [downloadVideo, hx]

/-- Witness for C4: a link without `watch?v=`; the download is refused with the
extraction error and the trace stays as it was. -/
theorem extractId_error_and_downloadVideo_witness :
    extractId "https://www.youtube.com/feed".toList = ([], some "cannot extract id".toList) ∧
      ∀ (w : World) (filename : GoString) (tr : List Action),
        downloadVideo w "https://www.youtube.com/feed".toList filename tr =
          (tr, .returned (some "cannot extract id".toList)) :=
  ⟨by decide, fun w filename tr =>
    (extractId_error_and_downloadVideo "https://www.youtube.com/feed".toList).2 w filename tr _
      (by decide)⟩

/-! ### The links of `main` -/

theorem stripLoop_links (links : List GoString) : (stripLoop links).links = links := by
  have hinv : ∀ (ls : List GoString) (vars : LoopVars),
      (ls.foldl (fun vars link => { vars with link := stripNewlines link }) vars).links =
        vars.links := by
    intro ls
    induction ls with
    | nil => intro vars; rfl
    | cons l ls ih => intro vars; rw [List.foldl_cons, ih]
  exact hinv links _

theorem mainLinks_eq (data : GoString) : mainLinks data = youtubePattern.FindAllString data :=
  stripLoop_links _

theorem mem_deduplicatedLinks {data l : GoString} :
    l ∈ deduplicatedLinks data ↔ l ∈ youtubePattern.FindAllString data := by
  rw [deduplicatedLinks, mem_deduplicate, mainLinks_eq]

/-- C7 (as stated, refuted): the link `https://www.youtube.com/feed` survives
extraction and deduplication, and `extractId` fails on it. -/
theorem surviving_link_without_id :
    "https://www.youtube.com/feed".toList ∈
        deduplicatedLinks "https://www.youtube.com/feed".toList ∧
      extractId "https://www.youtube.com/feed".toList =
        ([], some "cannot extract id".toList) := by
  decide

/-- The text `wat` does not fit the head of the link pattern at any of the positions
0 to 15, the positions at which `watch?v=` and a further character would lie within
the first 24 characters. -/
theorem no_wat_in_head :
    ∀ k, k ≤ 15 →
      matchHead ((youtubePattern.head.drop k).take 3) "wat".toList ≠ some [] := by
  decide

/-- In a string the link pattern matches as a whole, the character behind an
occurrence of `watch?v=` is never a backslash: the occurrence cannot lie within the
first 24 characters, and behind them the match holds no backslash. -/
theorem not_backslash_after_watch {l pre suf : GoString} {c : Char}
    (hl : FullMatch youtubePattern l) (hsplit : l = pre ++ "watch?v=".toList ++ c :: suf) :
    c ≠ backslash := by
  obtain ⟨h, r, rfl, hall, -, hacc⟩ := hl
  have hlen : h.length = 24 := by
    rw [← hall.length_eq]
    rfl
  have hin : c ∈ r → c ≠ backslash :=
    fun hc => ((youtubePattern_rep_accepts c).mp (hacc c hc)).2.2
  by_cases hk : pre.length ≤ 15
  · exfalso
    have hdrop : (h ++ r).drop pre.length = "watch?v=".toList ++ c :: suf := by
      rw [hsplit, List.append_assoc]
      exact List.drop_left' rfl
    rw [List.drop_append_of_le_length (by omega)] at hdrop
    have htake : (h.drop pre.length).take 3 = "wat".toList := by
      have h3 := congrArg (List.take 3) hdrop
      rw [List.take_append_of_le_length (by rw [List.length_drop]; omega)] at h3
      rw [h3]
      rfl
    have hfit := List.forall₂_take 3 (List.forall₂_drop pre.length hall)
    rw [htake] at hfit
    exact no_wat_in_head pre.length hk
      (matchHead_eq_some.mpr ⟨_, (List.append_nil _).symm, hfit⟩)
  · rcases List.append_eq_append_iff.mp hsplit with ⟨a, -, hr⟩ | ⟨a, hh, hr⟩
    · apply hin
      rw [hr]
      simp
    · have hnil : a = [] := by
        have hl' := congrArg List.length hh
        simp only [List.length_append] at hl'
        have hw : "watch?v=".toList.length = 8 := rfl
        apply List.length_eq_zero.mp
        omega
      subst hnil
      apply hin
      rw [List.nil_append] at hr
      rw [← hr]
      simp

/-- C7 (amended): every link that survives extraction and deduplication in `main` is a
string the link pattern matches as a whole, and `extractId` succeeds on it exactly
when it contains `watch?v=` followed by at least one more character. -/
theorem surviving_link_spec (data l : GoString) (hl : l ∈ deduplicatedLinks data) :
    FullMatch youtubePattern l ∧
      ((extractId l).2 = none ↔ ∃ pre c suf, l = pre ++ "watch?v=".toList ++ c :: suf) := by
  have hfull : FullMatch youtubePattern l :=
    fullMatch_of_mem_FindAllString (mem_deduplicatedLinks.mp hl)
  refine ⟨hfull, ?_⟩
  rw [extractId_ok_iff]
  constructor
  · rintro ⟨pre, c, suf, hsplit, -⟩
    exact ⟨pre, c, suf, hsplit⟩
  · rintro ⟨pre, c, suf, hsplit⟩
    exact ⟨pre, c, suf, hsplit, not_backslash_after_watch hfull hsplit⟩

/-- Witness for C7 (amended): a text with one watch link. -/
theorem surviving_link_spec_witness :
    "https://www.youtube.com/watch?v=abc".toList ∈
        deduplicatedLinks "see https://www.youtube.com/watch?v=abc".toList ∧
      FullMatch youtubePattern "https://www.youtube.com/watch?v=abc".toList ∧
      ((extractId "https://www.youtube.com/watch?v=abc".toList).2 = none ↔
        ∃ pre c suf, "https://www.youtube.com/watch?v=abc".toList =
          pre ++ "watch?v=".toList ++ c :: suf) :=
  ⟨by decide, surviving_link_spec "see https://www.youtube.com/watch?v=abc".toList _ (by decide)⟩

/-- C10: the loop that strips newlines has no effect on the pipeline: the list handed
to `deduplicate` is the list of matches, every match reaches the deduplicated links
unchanged, and a match with an embedded newline keeps it on the way to `extractId`
(here the match `https://www.youtube.com/watch?v=ab⏎cd`). -/
theorem stripLoop_no_effect :
    (∀ data : GoString, mainLinks data = youtubePattern.FindAllString data) ∧
      (∀ data l : GoString, l ∈ youtubePattern.FindAllString data → l ∈ deduplicatedLinks data) ∧
      deduplicatedLinks ("https://www.youtube.com/watch?v=ab".toList ++ newline :: "cd".toList) =
        ["https://www.youtube.com/watch?v=ab".toList ++ newline :: "cd".toList] ∧
      extractId ("https://www.youtube.com/watch?v=ab".toList ++ newline :: "cd".toList) =
        ("ab".toList ++ newline :: "cd".toList, none) :=
  ⟨mainLinks_eq, fun _ _ h => mem_deduplicatedLinks.mpr h, by decide, by decide⟩

/-! ### The boost loop -/

theorem boostLoop_failure (w : World) (folder : GoString) (volumeScale : Int) :
    ∀ (filenames : List GoString) (i₀ : Nat) (boostedFiles : List GoString) (tr : List Action)
      (i : Nat) (hi : i < filenames.length) (err : GoString),
      (∀ j (hj : j < i),
        w.result (tr ++ (boostActionsFrom folder volumeScale i₀ filenames).take j)
          (boostAction folder volumeScale (i₀ + j) filenames[j]) = none) →
      w.result (tr ++ (boostActionsFrom folder volumeScale i₀ filenames).take i)
          (boostAction folder volumeScale (i₀ + i) filenames[i]) = some err →
      boostLoop w folder volumeScale filenames i₀ boostedFiles tr =
        (tr ++ (boostActionsFrom folder volumeScale i₀ filenames).take (i + 1),
          .error ("error boosting audio for video ".toList ++ filenames[i] ++ ": ".toList ++ err)) := by
  intro filenames
  induction filenames with
  | nil => intro i₀ boostedFiles tr i hi; simp at hi
  | cons f fs ih =>
    intro i₀ boostedFiles tr i hi err hok hfail
    cases i with
    | zero =>
      simp only [List.take_zero, List.append_nil, Nat.add_zero, List.getElem_cons_zero] at hfail
      simp only [boostLoop, normalizeAndBoostAudio, boostActionsFrom, List.getElem_cons_zero,
        List.take_succ_cons, List.take_zero]
      rw [show Action.Run (boostArgv f (boostedName folder i₀) volumeScale) =
        boostAction folder volumeScale i₀ f from rfl, hfail]
    | succ i =>
      have h0 := hok 0 (Nat.succ_pos _)
      simp only [List.take_zero, List.append_nil, Nat.add_zero, List.getElem_cons_zero] at h0
      have hi' : i < fs.length := by simpa using hi
      have hstep : boostLoop w folder volumeScale (f :: fs) i₀ boostedFiles tr =
          boostLoop w folder volumeScale fs (i₀ + 1)
            (boostedFiles ++ [boostedName folder i₀])
            (tr ++ [boostAction folder volumeScale i₀ f]) := by
        simp only [boostLoop, normalizeAndBoostAudio]
        rw [show Action.Run (boostArgv f (boostedName folder i₀) volumeScale) =
          boostAction folder volumeScale i₀ f from rfl, h0]
      rw [hstep, ih (i₀ + 1) _ _ i hi' err]
      · simp only [boostActionsFrom, List.take_succ_cons, List.getElem_cons_succ,
          List.append_assoc, List.singleton_append]
      · intro j hj
        have := hok (j + 1) (Nat.succ_lt_succ hj)
        simp only [boostActionsFrom, List.take_succ_cons, List.getElem_cons_succ] at this
        rw [List.append_assoc, List.singleton_append,
          show i₀ + 1 + j = i₀ + (j + 1) by omega]
        exact this
      · simp only [boostActionsFrom, List.take_succ_cons, List.getElem_cons_succ] at hfail
        rw [List.append_assoc, List.singleton_append,
          show i₀ + 1 + i = i₀ + (i + 1) by omega]
        exact hfail

/-- C5: if the media tool succeeds when boosting the files of index 0 to `i - 1` and
fails when boosting the file of index `i`, then `combineAndBoostVolume` returns a
non-nil error whose message contains the filename of index `i`, and the actions it
has performed are exactly the boosts of the files of index 0 to `i`: no boost of a
later file, no manifest, no concatenation, no normalisation, no success message. -/
theorem combineAndBoostVolume_boost_failure (w : World) (filenames : List GoString)
    (folder output : GoString) (volumeScale : Int) (tr : List Action)
    (i : Nat) (hi : i < filenames.length) (err : GoString)
    (hok : ∀ j (hj : j < i),
      w.result (tr ++ (boostActions folder volumeScale filenames).take j)
        (boostAction folder volumeScale j filenames[j]) = none)
    (hfail : w.result (tr ++ (boostActions folder volumeScale filenames).take i)
        (boostAction folder volumeScale i filenames[i]) = some err) :
    ∃ msg : GoString,
      combineAndBoostVolume w filenames folder output volumeScale tr =
          (tr ++ (boostActions folder volumeScale filenames).take (i + 1), some msg) ∧
        filenames[i] <:+: msg ∧
        msg = "error boosting audio for video ".toList ++ filenames[i] ++ ": ".toList ++ err := by
  refine ⟨_, ?_, ?_, rfl⟩
  · have hloop := boostLoop_failure w folder volumeScale filenames 0 [] tr i hi err
      (by simpa [boostActions] using hok) (by simpa [boostActions] using hfail)
    simp only [combineAndBoostVolume, hloop, boostActions]
  · exact ⟨"error boosting audio for video ".toList, ": ".toList ++ err, by
      simp only [List.append_assoc]⟩

/-- Witness for C5: five files, the boost of the file of index 2 fails. The trace
holds the three boosts of `d/0.mp4`, `d/1.mp4` and `d/2.mp4` and nothing else, and
the error names `d/2.mp4`. -/
theorem combineAndBoostVolume_boost_failure_witness :
    ∃ msg : GoString,
      combineAndBoostVolume failingWorld
          ["d/0.mp4".toList, "d/1.mp4".toList, "d/2.mp4".toList, "d/3.mp4".toList,
            "d/4.mp4".toList]
          "d".toList "out.mp4".toList 5 [] =
        ([boostAction "d".toList 5 0 "d/0.mp4".toList,
            boostAction "d".toList 5 1 "d/1.mp4".toList,
            boostAction "d".toList 5 2 "d/2.mp4".toList], some msg) ∧
        "d/2.mp4".toList <:+: msg ∧
        msg = "error boosting audio for video d/2.mp4: exit status 1".toList := by
  obtain ⟨msg, hrun, hinfix, hmsg⟩ := combineAndBoostVolume_boost_failure failingWorld
    ["d/0.mp4".toList, "d/1.mp4".toList, "d/2.mp4".toList, "d/3.mp4".toList, "d/4.mp4".toList]
    "d".toList "out.mp4".toList 5 [] 2 (by decide) "exit status 1".toList
    (by
      intro j hj
      interval_cases j <;> rfl)
    rfl
  exact ⟨msg, hrun, hinfix, hmsg⟩

/-! ### The successful run -/

theorem AlongRun.head {P : List Action → Action → Prop} {past acts : List Action} {a : Action}
    (h : AlongRun P past (a :: acts)) : P past a := by
  simpa using h 0 (by simp)

theorem AlongRun.tail {P : List Action → Action → Prop} {past acts : List Action} {a : Action}
    (h : AlongRun P past (a :: acts)) : AlongRun P (past ++ [a]) acts := by
  intro i hi
  simpa using h (i + 1) (by simpa using hi)

theorem AlongRun.left {P : List Action → Action → Prop} {past xs ys : List Action}
    (h : AlongRun P past (xs ++ ys)) : AlongRun P past xs := by
  intro i hi
  have := h i (by rw [List.length_append]; omega)
  rwa [List.take_append_of_le_length (Nat.le_of_lt hi), List.getElem_append_left hi] at this

theorem AlongRun.right {P : List Action → Action → Prop} {past xs ys : List Action}
    (h : AlongRun P past (xs ++ ys)) : AlongRun P (past ++ xs) ys := by
  induction xs generalizing past with
  | nil => simpa using h
  | cons x xs ih =>
    have := ih (AlongRun.tail h)
    simpa using this

theorem boost_eq_expectedBoost (F : GoString) (i : Nat) :
    Action.Run (boostArgv (downloadName F i) (boostedName F i) 5) = expectedBoost F i :=
  rfl

theorem manifest_eq_expectedManifestLine (F : GoString) (i : Nat) :
    Action.WriteString "videos.txt".toList (manifestLine (boostedName F i)) =
      expectedManifestLine F i :=
  rfl

theorem concat_eq_expectedConcat :
    Action.Run (concatArgv "videos.txt".toList "combined_output.mp4".toList) = expectedConcat :=
  rfl

theorem normalize_eq_expectedNormalize (O : GoString) :
    Action.Run (dynaudnormArgv "combined_output.mp4".toList O) = expectedNormalize O :=
  rfl

theorem message_eq_expectedMessage (O : GoString) :
    Action.Printf ("Successfully created output file: ".toList ++ O ++ [newline]) =
      expectedMessage O :=
  rfl

theorem downloadVideo_success (w : World) (link F : GoString) (i : Nat) (tr : List Action)
    (hid : (extractId link).2 = none)
    (hok : AlongRun (fun past a => w.result past a = none) tr (expectedDownload w link F i tr))
    (haudio : AlongRun (fun past a => answersWithAudio w past a = true) tr
      (expectedDownload w link F i tr)) :
    downloadVideo w link (downloadName F i) tr =
      (tr ++ expectedDownload w link F i tr, .returned none) := by
  rcases hx : extractId link with ⟨videoID, e⟩
  rw [hx] at hid
  simp only at hid
  subst hid
  have hany := haudio.head
  simp only [expectedDownload, hx, answersWithAudio, List.any_eq_true, decide_eq_true_eq]
    at hany
  obtain ⟨f, hf, hpos⟩ := hany
  have hmem : f ∈ (w.video tr videoID).Formats.filter fun f => decide (0 < f.AudioChannels) := by
    simp only [List.mem_filter, decide_eq_true_eq]
    exact ⟨hf, hpos⟩
  have hmem' : f ∈ w.sortFormats
      ((w.video tr videoID).Formats.filter fun f => decide (0 < f.AudioChannels)) :=
    (w.sortFormats_perm _).mem_iff.mpr hmem
  cases hs : w.sortFormats
      ((w.video tr videoID).Formats.filter fun f => decide (0 < f.AudioChannels)) with
  | nil => rw [hs] at hmem'; cases hmem'
  | cons format rest =>
    simp only [expectedDownload, hx, hs, List.headD_cons] at hok ⊢
    have h1 := hok.head
    have h2 := hok.tail.head
    have h3 := hok.tail.tail.head
    have h4 := hok.tail.tail.tail.head
    simp only [downloadVideo, hx, WithAudioChannels, hs, h1]
    rw [h2]
    simp only []
    rw [show downloadName F i = ordinalFile F i from rfl, h3]
    simp only []
    rw [h4]
    simp only [List.append_assoc, List.singleton_append, List.cons_append, List.nil_append]

theorem downloadLoop_success (w : World) (F : GoString) :
    ∀ (links : List GoString) (index : Nat) (filenames : List GoString) (tr : List Action),
      (∀ l ∈ links, (extractId l).2 = none) →
      AlongRun (fun past a => w.result past a = none) tr (expectedDownloads w F index links tr) →
      AlongRun (fun past a => answersWithAudio w past a = true) tr
        (expectedDownloads w F index links tr) →
      downloadLoop w F links index filenames tr =
        (tr ++ expectedDownloads w F index links tr,
          .ok (filenames ++ (List.range' index links.length).map (downloadName F))) := by
  intro links
  induction links with
  | nil =>
    intro index filenames tr _ _ _
    simp [downloadLoop, expectedDownloads]
  | cons link rest ih =>
    intro index filenames tr hid hok haudio
    have hlink := hid link (List.mem_cons_self _ _)
    have hrest : ∀ l ∈ rest, (extractId l).2 = none :=
      fun l hl => hid l (List.mem_cons_of_mem _ hl)
    rw [expectedDownloads] at hok haudio
    simp only [downloadLoop,
      downloadVideo_success w link F index tr hlink hok.left haudio.left]
    rw [ih (index + 1) _ _ hrest hok.right haudio.right]
    simp only [expectedDownloads, List.length_cons, List.range'_succ, List.map_cons,
      List.append_assoc, List.singleton_append]

theorem boostLoop_success (w : World) (F : GoString) :
    ∀ (n i₀ : Nat) (boostedFiles : List GoString) (tr : List Action),
      AlongRun (fun past a => w.result past a = none) tr
        ((List.range' i₀ n).map (expectedBoost F)) →
      boostLoop w F 5 ((List.range' i₀ n).map (downloadName F)) i₀ boostedFiles tr =
        (tr ++ (List.range' i₀ n).map (expectedBoost F),
          .ok (boostedFiles ++ (List.range' i₀ n).map (boostedName F))) := by
  intro n
  induction n with
  | zero =>
    intro i₀ boostedFiles tr _
    simp [boostLoop]
  | succ n ih =>
    intro i₀ boostedFiles tr hok
    simp only [List.range'_succ, List.map_cons] at hok ⊢
    have h1 := hok.head
    simp only [boostLoop, normalizeAndBoostAudio, boost_eq_expectedBoost, h1]
    rw [ih (i₀ + 1) _ _ hok.tail]
    simp only [List.append_assoc, List.singleton_append]

theorem writeFileList_success (w : World) (F : GoString) :
    ∀ (n i₀ : Nat) (tr : List Action),
      AlongRun (fun past a => w.result past a = none) tr
        ((List.range' i₀ n).map (expectedManifestLine F)) →
      writeFileList w "videos.txt".toList ((List.range' i₀ n).map (boostedName F)) tr =
        (tr ++ (List.range' i₀ n).map (expectedManifestLine F), none) := by
  intro n
  induction n with
  | zero =>
    intro i₀ tr _
    simp [writeFileList]
  | succ n ih =>
    intro i₀ tr hok
    simp only [List.range'_succ, List.map_cons] at hok ⊢
    have h1 := hok.head
    simp only [writeFileList, manifest_eq_expectedManifestLine, h1]
    rw [ih (i₀ + 1) _ hok.tail]
    simp only [List.append_assoc, List.singleton_append]

theorem mainPipeline_success (w : World) (links : List GoString) (F O : GoString)
    (hid : ∀ l ∈ links, (extractId l).2 = none)
    (haudio : VideosHaveAudio w (expectedCalls w links F O))
    (hok : CallsSucceed w (expectedCalls w links F O)) :
    mainPipeline w links F O [] = (expectedRun w links F O, .ok) := by
  unfold VideosHaveAudio expectedCalls at haudio
  unfold CallsSucceed expectedCalls at hok
  rw [List.range_eq_range'] at hok
  have hD := hok.left.left.left.left
  have hB := hok.left.left.left.right
  have hC := hok.left.left.right.head
  have hW := hok.left.right
  have hconcat := hok.right.head
  have hnorm := hok.right.tail.head
  simp only [List.nil_append] at hB hC hW hconcat hnorm
  have hdl := downloadLoop_success w F links 0 [] [] hid hD haudio.left.left.left.left
  simp only [List.nil_append] at hdl
  have hbl := boostLoop_success w F links.length 0 [] _ hB
  simp only [List.nil_append] at hbl
  have hwl := writeFileList_success w F links.length 0 _ hW
  simp only [List.append_assoc, List.singleton_append, List.cons_append, List.nil_append]
    at hC hwl hconcat hnorm
  simp only [mainPipeline, hdl, combineAndBoostVolume, hbl, combineVideos, hC, hwl,
    concat_eq_expectedConcat, hconcat, applyDynaudnorm, normalize_eq_expectedNormalize, hnorm,
    expectedRun, expectedCalls, List.range_eq_range',
    List.append_assoc, List.singleton_append, List.cons_append, List.nil_append]
  rfl

/-- C6 (as stated, refuted): the extracted link `https://www.youtube.com/feed` has no
identifier; in a world where every external call succeeds the program performs no
external action for it and ends with a fatal error, instead of downloading it to
`d/0.mp4`. -/
theorem main_without_id_no_download :
    (∀ past a, quietWorld.result past a = none) ∧
      deduplicatedLinks "https://www.youtube.com/feed".toList =
        ["https://www.youtube.com/feed".toList] ∧
      main quietWorld "https://www.youtube.com/feed".toList "d".toList "out.mp4".toList =
        ([], .fatal "Error downloading video:cannot extract id".toList) :=
  ⟨fun _ _ => rfl, by decide, by decide⟩

/-- C6 (amended): when every distinct link has an extractable identifier, every video
requested in the run comes back with a format that has an audio channel, and every
external call of the run succeeds, the program performs exactly the sequence
`expectedRun`: the download of the i-th distinct link to `F/i.mp4` in first-seen
order, the boost of `F/i.mp4` into `F/boosted_i.mp4` with volume factor 5 in order,
the manifest `videos.txt` with the lines `file 'F/boosted_i.mp4'` in order, one
concatenation producing `combined_output.mp4`, one normalisation of that file into
the output path, and the success message naming the output path once; and it exits
with status 0. -/
theorem main_success (w : World) (data F O : GoString)
    (hid : ∀ l ∈ deduplicatedLinks data, (extractId l).2 = none)
    (haudio : VideosHaveAudio w (expectedCalls w (deduplicatedLinks data) F O))
    (hok : CallsSucceed w (expectedCalls w (deduplicatedLinks data) F O)) :
    main w data F O = (expectedRun w (deduplicatedLinks data) F O, .ok) :=
  mainPipeline_success w _ F O hid haudio hok

/-- Witness for C6 (amended): three occurrences of one watch URL and one distinct
watch URL give two downloads, to `d/0.mp4` and `d/1.mp4`, two boosts, the manifest of
two lines, one concatenation, one normalisation and one success message. The world
refuses a video that the run does not request and holds a video without audio that
the run does not request either. -/
theorem main_success_witness :
    pickyWorld.result [] (.GetVideo "zzz".toList) ≠ none ∧
      answersWithAudio pickyWorld [] (.GetVideo "yyy".toList) = false ∧
      main pickyWorld
          ("https://www.youtube.com/watch?v=aaa|https://www.youtube.com/watch?v=aaa|" ++
            "https://www.youtube.com/watch?v=bbb|https://www.youtube.com/watch?v=aaa").toList
          "d".toList "out.mp4".toList =
        ([.GetVideo "aaa".toList,
          .GetStream
            { ID := "aaa".toList
              Formats := [{ ItagNo := 18, AudioChannels := 2 },
                { ItagNo := 137, AudioChannels := 0 }, { ItagNo := 140, AudioChannels := 2 }] }
            { ItagNo := 140, AudioChannels := 2 },
          .Create "d/0.mp4".toList,
          .Copy "d/0.mp4".toList,
          .GetVideo "bbb".toList,
          .GetStream
            { ID := "bbb".toList
              Formats := [{ ItagNo := 18, AudioChannels := 2 },
                { ItagNo := 137, AudioChannels := 0 }, { ItagNo := 140, AudioChannels := 2 }] }
            { ItagNo := 140, AudioChannels := 2 },
          .Create "d/1.mp4".toList,
          .Copy "d/1.mp4".toList,
          .Run ["ffmpeg".toList, "-i".toList, "d/0.mp4".toList, "-c:v".toList,
            "libx264".toList, "-vf".toList, "fps=30".toList, "-af".toList, "volume=5".toList,
            "-c:a".toList, "aac".toList, "-strict".toList, "experimental".toList,
            "-b:a".toList, "192k".toList, "d/boosted_0.mp4".toList],
          .Run ["ffmpeg".toList, "-i".toList, "d/1.mp4".toList, "-c:v".toList,
            "libx264".toList, "-vf".toList, "fps=30".toList, "-af".toList, "volume=5".toList,
            "-c:a".toList, "aac".toList, "-strict".toList, "experimental".toList,
            "-b:a".toList, "192k".toList, "d/boosted_1.mp4".toList],
          .Create "videos.txt".toList,
          .WriteString "videos.txt".toList "file 'd/boosted_0.mp4'\n".toList,
          .WriteString "videos.txt".toList "file 'd/boosted_1.mp4'\n".toList,
          .Run ["ffmpeg".toList, "-f".toList, "concat".toList, "-safe".toList, "0".toList,
            "-i".toList, "videos.txt".toList, "-c:v".toList, "libx264".toList, "-c:a".toList,
            "aac".toList, "-strict".toList, "experimental".toList, "-b:a".toList,
            "192k".toList, "combined_output.mp4".toList],
          .Run ["ffmpeg".toList, "-i".toList, "combined_output.mp4".toList, "-c:v".toList,
            "copy".toList, "-af".toList, "dynaudnorm".toList, "-c:a".toList, "aac".toList,
            "-strict".toList, "experimental".toList, "-b:a".toList, "192k".toList,
            "out.mp4".toList],
          .Printf "Successfully created output file: out.mp4\n".toList],
          .ok) :=
  ⟨by decide, by decide,
    (main_success pickyWorld _ "d".toList "out.mp4".toList (by decide)
      (by unfold VideosHaveAudio AlongRun; decide)
      (by unfold CallsSucceed AlongRun; decide)).trans (by decide)⟩

/-! ### Extraction from a crafted text -/

theorem FindAllString_gap {g t : GoString} (hg : NoMatchBegins g t) :
    youtubePattern.FindAllString (g ++ t) = youtubePattern.FindAllString t := by
  induction g with
  | nil => rfl
  | cons c g ih =>
    have hnone : matchAt youtubePattern (c :: (g ++ t)) = none :=
      hg (c :: g) (by simp) (List.cons_ne_nil _ _)
    have htail : NoMatchBegins g t :=
      fun s hs hne => hg s (by rw [List.tails_cons]; exact List.mem_cons_of_mem _ hs) hne
    show youtubePattern.FindAllString (c :: (g ++ t)) = _
    rw [FindAllString_cons_of_none hnone, ih htail]

theorem youtubePattern_accepts_urlChar {c : Char} (hc : urlChar c = true) :
    c ≠ dquote ∧ c ≠ '|' ∧ c ≠ backslash := by
  refine ⟨?_, ?_, ?_⟩ <;>
  · rintro rfl
    revert hc
    decide

theorem FindAllString_url {u t : GoString} (hu : WatchURL u) (ht : EndsLink t) :
    youtubePattern.FindAllString (u ++ t) = u :: youtubePattern.FindAllString t := by
  obtain ⟨id, rfl, hne, hid⟩ := hu
  have hstop : t.takeWhile youtubePattern.rep.accepts = [] := by
    cases t with
    | nil => rfl
    | cons c t =>
      have hc := ht c (by simp)
      have hacc : ¬ youtubePattern.rep.accepts c = true := by
        rw [youtubePattern_rep_accepts]
        rcases hc with rfl | rfl | rfl <;> simp
      rw [List.takeWhile_cons, if_neg hacc]
  have hrun : ("watch?v=".toList ++ id ++ t).takeWhile youtubePattern.rep.accepts =
      "watch?v=".toList ++ id := by
    rw [List.takeWhile_append_of_pos, hstop, List.append_nil]
    intro c hc
    rw [youtubePattern_rep_accepts]
    rcases List.mem_append.mp hc with hw | hi
    · have hwatch : ∀ d ∈ "watch?v=".toList, d ≠ dquote ∧ d ≠ '|' ∧ d ≠ backslash := by
        decide
      exact hwatch c hw
    · exact youtubePattern_accepts_urlChar (hid c hi)
  have hmatch : matchAt youtubePattern (linkPrefix ++ "watch?v=".toList ++ id ++ t) =
      some (linkPrefix, "watch?v=".toList ++ id) := by
    refine matchAt_eq_some.mpr ⟨"watch?v=".toList ++ id ++ t, by simp only [List.append_assoc],
      youtubePattern_head_linkPrefix, hrun.symm, ?_⟩
    intro hnil
    exact hne (List.append_eq_nil.mp hnil).2
  have hdrop : List.drop (linkPrefix ++ ("watch?v=".toList ++ id)).length
      (linkPrefix ++ "watch?v=".toList ++ id ++ t) = t :=
    List.drop_left' (by simp only [List.append_assoc])
  rw [FindAllString_of_some hmatch, hdrop, List.append_assoc]

theorem FindAllString_blob (parts : List (GoString × GoString))
    (hurl : ∀ p ∈ parts, WatchURL p.1) (hgap : GapsClean parts)
    (hdelim : Delimited parts) :
    youtubePattern.FindAllString (blob parts) = parts.map Prod.fst := by
  induction parts with
  | nil => rfl
  | cons p rest ih =>
    obtain ⟨u, g⟩ := p
    have hu : WatchURL u := hurl (u, g) (List.mem_cons_self _ _)
    rw [blob, List.append_assoc, FindAllString_url hu hdelim.1, FindAllString_gap hgap.1,
      ih (fun p hp => hurl p (List.mem_cons_of_mem _ hp)) hgap.2 hdelim.2]
    rfl

theorem length_deduplicate (xs : List GoString) :
    (deduplicate xs).length = xs.toFinset.card := by
  rw [← List.toFinset_card_of_nodup (nodup_deduplicate xs)]
  congr 1
  ext x
  simp only [List.mem_toFinset, mem_deduplicate]

/-- C2 (as stated, refuted): two distinct watch URLs and a duplicate of the first,
separated by single spaces (text in which no match begins), give one link, the whole
text, and not the two URLs: a space does not end a match. -/
theorem extraction_merges_across_spaces :
    WatchURL "https://www.youtube.com/watch?v=abc".toList ∧
      WatchURL "https://www.youtube.com/watch?v=def".toList ∧
      NoMatchBegins " ".toList
        "https://www.youtube.com/watch?v=def https://www.youtube.com/watch?v=abc".toList ∧
      NoMatchBegins " ".toList "https://www.youtube.com/watch?v=abc".toList ∧
      deduplicate (youtubePattern.FindAllString
        ("https://www.youtube.com/watch?v=abc".toList ++ " ".toList ++
          "https://www.youtube.com/watch?v=def".toList ++ " ".toList ++
          "https://www.youtube.com/watch?v=abc".toList)) =
        [("https://www.youtube.com/watch?v=abc https://www.youtube.com/watch?v=def " ++
          "https://www.youtube.com/watch?v=abc").toList] :=
  ⟨⟨"abc".toList, by decide, by decide, by decide⟩,
    ⟨"def".toList, by decide, by decide, by decide⟩,
    by unfold NoMatchBegins; decide, by unfold NoMatchBegins; decide, by decide⟩

/-- C2 (amended): for a text made of a leading gap and of occurrences of well-formed
watch URLs, each followed by a gap, where no match begins inside a gap and every URL
occurrence is directly followed by a double quote, a vertical bar, a backslash or the
end of the text, the link pattern followed by `deduplicate` yields exactly the
distinct URLs, in the order of their first appearance; their number is the number N
of distinct URLs, however many duplicates the text holds. -/
theorem extraction_then_deduplicate (g₀ : GoString) (parts : List (GoString × GoString))
    (hurl : ∀ p ∈ parts, WatchURL p.1)
    (hgap₀ : NoMatchBegins g₀ (blob parts)) (hgap : GapsClean parts)
    (hdelim : Delimited parts) :
    deduplicate (youtubePattern.FindAllString (g₀ ++ blob parts)) =
        dropRepeats (parts.map Prod.fst) ∧
      (deduplicate (youtubePattern.FindAllString (g₀ ++ blob parts))).length =
        (parts.map Prod.fst).toFinset.card := by
  rw [FindAllString_gap hgap₀, FindAllString_blob parts hurl hgap hdelim]
  exact ⟨deduplicate_eq_dropRepeats _, length_deduplicate _⟩

/-- Witness for C2 (amended): the text
`watch these: U|hV| U| worth a watch` with two distinct watch URLs `U`, `V` and one
duplicate of `U`; a gap may end in a letter `h` and the last gap may hold any text in
which no match begins. -/
theorem extraction_then_deduplicate_witness :
    deduplicate (youtubePattern.FindAllString
        ("watch these: ".toList ++ blob
          [("https://www.youtube.com/watch?v=aaa".toList, "|h".toList),
            ("https://www.youtube.com/watch?v=bbb".toList, "| ".toList),
            ("https://www.youtube.com/watch?v=aaa".toList, "| worth a watch".toList)])) =
        ["https://www.youtube.com/watch?v=aaa".toList,
          "https://www.youtube.com/watch?v=bbb".toList] ∧
      (deduplicate (youtubePattern.FindAllString
        ("watch these: ".toList ++ blob
          [("https://www.youtube.com/watch?v=aaa".toList, "|h".toList),
            ("https://www.youtube.com/watch?v=bbb".toList, "| ".toList),
            ("https://www.youtube.com/watch?v=aaa".toList, "| worth a watch".toList)]))).length =
        2 := by
  have hurl : ∀ p ∈ [("https://www.youtube.com/watch?v=aaa".toList, "|h".toList),
      ("https://www.youtube.com/watch?v=bbb".toList, "| ".toList),
      ("https://www.youtube.com/watch?v=aaa".toList, "| worth a watch".toList)],
      WatchURL p.1 := by
    intro p hp
    simp only [List.mem_cons, List.mem_singleton, List.not_mem_nil, or_false] at hp
    rcases hp with rfl | rfl | rfl
    · exact ⟨"aaa".toList, by decide, by decide, by decide⟩
    · exact ⟨"bbb".toList, by decide, by decide, by decide⟩
    · exact ⟨"aaa".toList, by decide, by decide, by decide⟩
  have hgap : GapsClean [("https://www.youtube.com/watch?v=aaa".toList, "|h".toList),
      ("https://www.youtube.com/watch?v=bbb".toList, "| ".toList),
      ("https://www.youtube.com/watch?v=aaa".toList, "| worth a watch".toList)] := by
    refine ⟨?_, ?_, ?_, trivial⟩ <;>
    · unfold NoMatchBegins
      decide
  have hdelim : Delimited [("https://www.youtube.com/watch?v=aaa".toList, "|h".toList),
      ("https://www.youtube.com/watch?v=bbb".toList, "| ".toList),
      ("https://www.youtube.com/watch?v=aaa".toList, "| worth a watch".toList)] := by
    refine ⟨?_, ?_, ?_, trivial⟩ <;>
    · intro c hc
      have hbar : c = '|' := by simpa [blob] using hc.symm
      exact Or.inr (Or.inl hbar)
  have hmain := extraction_then_deduplicate "watch these: ".toList _ hurl
    (by unfold NoMatchBegins; decide) hgap hdelim
  exact ⟨hmain.1.trans (by decide), hmain.2.trans (by decide)⟩

end LectureDownload
